import Mathlib

/-!
Verification of the polymarket data-extraction library.

This file gives a shallow embedding, in Lean 4, of the parts of the
library that the specification talks about, and proves (or refutes)
the specified properties against that embedding.

Conventions used by the embedding:
* Python `Decimal` values (order-book prices and sizes) and floats that
  only flow through arithmetic are modelled as rationals.
* Python dictionaries are modelled as association lists with
  insert-or-overwrite semantics preserving first-insertion key order,
  mirroring CPython dict behaviour.
* Python `None` becomes `Option.none`; truthiness tests on optional
  strings and integers are modelled explicitly (empty string and zero
  are falsy).
* Raised exceptions become explicit error constructors.
* `datetime` timestamps are modelled as naturals (only their ordering
  and equality are ever used by the code under verification).
-/

namespace Polymarket

/-- Truthiness of a Python `Optional[str]`: `None` and the empty string
are falsy, every other string is truthy. -/
def optStrTruthy : Option String → Bool
  | none => false
  | some s => s != ""

/-- Truthiness of a Python `Optional[int]`: `None` and `0` are falsy. -/
def optIntTruthy : Option Int → Bool
  | none => false
  | some n => n != 0

/-- ASCII lower-casing of one character, modelling Python `str.lower`
on the ASCII inputs the library manipulates. -/
def pyLowerChar (c : Char) : Char :=
  if 'A' ≤ c ∧ c ≤ 'Z' then Char.ofNat (c.toNat + 32) else c

/-- Python `s.lower()` (ASCII). -/
def pyLower (s : String) : String := ⟨s.data.map pyLowerChar⟩

/-- Python `s.replace(a, b)` for single-character patterns. -/
def pyReplaceChar (a b : Char) (s : String) : String :=
  ⟨s.data.map (fun c => if c = a then b else c)⟩

/-- Python `s[:n]`. -/
def pyTake (n : Nat) (s : String) : String := ⟨s.data.take n⟩

/-- Splitting helper for `pySplit`. -/
def splitCharAux (sep : Char) : List Char → List Char → List (List Char)
  | [], acc => [acc.reverse]
  | c :: rest, acc =>
    if c = sep then acc.reverse :: splitCharAux sep rest []
    else splitCharAux sep rest (c :: acc)

/-- Python `s.split(sep)` for a single-character separator (in
particular `"".split(sep) == [""]`). -/
def pySplit (sep : Char) (s : String) : List String :=
  (splitCharAux sep s.data []).map (fun l => ⟨l⟩)

/-- Python `needle in hay` on strings: some contiguous run of `hay`
equals `needle`. -/
def strIn (needle hay : String) : Bool :=
  hay.data.tails.any (fun t => needle.data.isPrefixOf t)

/-- The unified market representation (`models.py`, `class Market`).
The `start_date`/`end_date` fields and the raw `metadata` dictionary are
omitted: no verified property reads them.  The Python `id` field
(`Optional[Union[int, str]]`) is modelled as an optional string. -/
structure Market where
  slug : String
  condition_id : String
  question : String
  outcomes : List String
  token_ids : List String
  active : Bool
  closed : Bool
  id : Option String := none
  question_id : Option String := none
  volume : ℚ := 0
  liquidity : ℚ := 0
  archived : Bool := false
  enable_order_book : Bool := true
  neg_risk : Bool := false
  neg_risk_market_id : Option String := none
  group_item_title : Option String := none
  deriving Repr, DecidableEq

/-- `Market.is_inactive_negrisk_option` (`models.py` lines 125-131):
`self.neg_risk and self.neg_risk_market_id and (not self.token_ids or
all(not tid for tid in self.token_ids))`, read as a truthiness test. -/
def Market.is_inactive_negrisk_option (m : Market) : Bool :=
  m.neg_risk && optStrTruthy m.neg_risk_market_id &&
    (m.token_ids.isEmpty || m.token_ids.all (fun tid => tid == ""))

/-- The Gamma (metadata) API market payload, as consumed by
`Market.from_gamma_response`.  The `clobTokenIds` and `outcomes` fields
hold the JSON-decoded list when the raw field is present, truthy and
parses as JSON (`none` models an absent or falsy field); date fields are
omitted as above. -/
structure GammaPayload where
  id : Option String := none
  slug : String := ""
  question : String := ""
  conditionId : String := ""
  clobTokenIds : Option (List String) := none
  outcomes : Option (List String) := none
  active : Bool := false
  closed : Bool := false
  archived : Bool := false
  liquidity : ℚ := 0
  volume : ℚ := 0
  enableOrderBook : Bool := true
  negRisk : Bool := false
  negRiskMarketID : Option String := none
  groupItemTitle : Option String := none
  deriving Repr

/-- `Market.from_gamma_response` (`models.py` lines 133-187): each list
field defaults to the empty list when the raw field is absent/falsy. -/
def Market.from_gamma_response (data : GammaPayload) : Market :=
  { id := data.id
    slug := data.slug
    question := data.question
    condition_id := data.conditionId
    token_ids := data.clobTokenIds.getD []
    outcomes := data.outcomes.getD []
    active := data.active
    closed := data.closed
    archived := data.archived
    liquidity := data.liquidity
    volume := data.volume
    enable_order_book := data.enableOrderBook
    neg_risk := data.negRisk
    neg_risk_market_id := data.negRiskMarketID
    group_item_title := data.groupItemTitle }

/-- One entry of the `tokens` array in a CLOB market payload. -/
structure ClobToken where
  token_id : String := ""
  outcome : String := ""
  deriving Repr

/-- The CLOB (trading) API market payload, as consumed by
`Market.from_clob_response`. -/
structure ClobPayload where
  market_slug : String := ""
  condition_id : String := ""
  question_id : Option String := none
  question : String := ""
  tokens : List ClobToken := []
  active : Bool := false
  closed : Bool := false
  archived : Bool := false
  enable_order_book : Bool := true
  neg_risk : Bool := false
  neg_risk_market_id : Option String := none
  group_item_title : Option String := none
  deriving Repr

/-- The token-extraction loop of `Market.from_clob_response`
(`models.py` lines 201-210): keep a `(token_id, outcome)` pair only when
both strings are non-empty, appending to two parallel lists. -/
def extractTokens : List ClobToken → List String × List String
  | [] => ([], [])
  | t :: rest =>
    let p := extractTokens rest
    if t.token_id != "" && t.outcome != "" then
      (t.token_id :: p.1, t.outcome :: p.2)
    else p

/-- `Market.from_clob_response` (`models.py` lines 189-236). -/
def Market.from_clob_response (data : ClobPayload) : Market :=
  { slug := data.market_slug
    condition_id := data.condition_id
    question_id := data.question_id
    question := data.question
    token_ids := (extractTokens data.tokens).1
    outcomes := (extractTokens data.tokens).2
    active := data.active
    closed := data.closed
    archived := data.archived
    enable_order_book := data.enable_order_book
    neg_risk := data.neg_risk
    neg_risk_market_id := data.neg_risk_market_id
    group_item_title := data.group_item_title }

/-- Concrete market used to witness the second conjunct of C2. -/
def witnessMarketC2 : Market :=
  { slug := "m", condition_id := "c", question := "q?"
    outcomes := ["Yes"], token_ids := ["tok1"], active := true, closed := false
    neg_risk := true, neg_risk_market_id := some "grp" }

/-- Gamma payload whose JSON-decoded `outcomes` and `clobTokenIds`
lists have different lengths. -/
def gammaMismatchPayload : GammaPayload :=
  { slug := "mismatch", outcomes := some ["Yes"], clobTokenIds := some ["a", "b"] }

/-- One price level of an order book (`orderbook.py`, `OrderLevel`).
Python `Decimal` is modelled by `ℚ`. -/
structure OrderLevel where
  price : ℚ
  size : ℚ
  deriving Repr, DecidableEq

/-- An order book for one market outcome (`orderbook.py`, `OrderBook`);
the `timestamp` field is omitted (never read by a verified property). -/
structure OrderBook where
  market_id : String := ""
  token_id : String := ""
  outcome : String := ""
  bids : List OrderLevel := []
  asks : List OrderLevel := []
  deriving Repr

/-- `OrderBook.best_bid`: the first bid level, if any. -/
def OrderBook.best_bid (b : OrderBook) : Option OrderLevel := b.bids.head?

/-- `OrderBook.best_ask`: the first ask level, if any. -/
def OrderBook.best_ask (b : OrderBook) : Option OrderLevel := b.asks.head?

/-- `OrderBook.mid_price`: `(best_bid.price + best_ask.price) / 2` when
both sides are non-empty (dataclass instances are always truthy, so the
Python `if self.best_bid and self.best_ask` is a `None` test). -/
def OrderBook.mid_price (b : OrderBook) : Option ℚ :=
  match b.best_bid, b.best_ask with
  | some bid, some ask => some ((bid.price + ask.price) / 2)
  | _, _ => none

/-- `OrderBook.spread`: `best_ask.price - best_bid.price` when both
sides are non-empty. -/
def OrderBook.spread (b : OrderBook) : Option ℚ :=
  match b.best_bid, b.best_ask with
  | some bid, some ask => some (ask.price - bid.price)
  | _, _ => none

/-- `OrderBook.spread_percent`: the Python guard is
`if self.mid_price and self.spread`, a truthiness test on two `Decimal`
options, so it requires both to be present AND non-zero. -/
def OrderBook.spread_percent (b : OrderBook) : Option ℚ :=
  match b.mid_price, b.spread with
  | some mid, some s =>
    if mid ≠ 0 ∧ s ≠ 0 then some (s / mid * 100) else none
  | _, _ => none

/-- The two `Decimal` divisions inside `get_market_impact` that raise
when their divisor is zero (`InvalidOperation` for `0/0`,
`DivisionByZero` otherwise); each constructor records the numerator of
the failing division. -/
inductive DecimalDivError where
  | averagePrice (numerator : ℚ)
  | slippagePercent (numerator : ℚ)
  deriving Repr, DecidableEq

/-- Result dictionary of `OrderBook.get_market_impact`. -/
structure ImpactResult where
  average_price : ℚ
  best_price : ℚ
  slippage : ℚ
  slippage_percent : ℚ
  levels_consumed : Nat
  total_cost : ℚ
  deriving Repr, DecidableEq

/-- The level-walking loop of `get_market_impact` (`orderbook.py` lines
145-152); returns `(remaining_size, total_cost, levels_consumed)`. -/
def impactLoop : List OrderLevel → ℚ → ℚ → Nat → ℚ × ℚ × Nat
  | [], rem, total, consumed => (rem, total, consumed)
  | l :: rest, rem, total, consumed =>
    if rem ≤ 0 then (rem, total, consumed)
    else impactLoop rest (rem - min rem l.size) (total + min rem l.size * l.price) (consumed + 1)

/-- The side selection at the top of `get_market_impact`:
`self.asks if side.lower() == 'buy' else self.bids`. -/
def impactLevels (b : OrderBook) (side : String) : List OrderLevel :=
  if pyLower side == "buy" then b.asks else b.bids

/-- `OrderBook.get_market_impact` (`orderbook.py` lines 126-170).
`Except.ok none` is the insufficient-liquidity (or empty-side) outcome;
`Except.error` models a raised decimal arithmetic error: the
`average_price` division raises exactly when `size = 0` (reached with
`total_cost / size = 0 / 0`), and the later `slippage_percent` division
raises exactly when the best price is zero. -/
def OrderBook.get_market_impact (b : OrderBook) (size : ℚ) (side : String) :
    Except DecimalDivError (Option ImpactResult) :=
  let levels := impactLevels b side
  if levels.isEmpty then Except.ok none
  else
    let r := impactLoop levels size 0 0
    if 0 < r.1 then Except.ok none
    else
      let avg := r.2.1 / size
      let best := (levels.headD ⟨0, 0⟩).price
      if size = 0 then Except.error (DecimalDivError.averagePrice r.2.1)
      else if best = 0 then Except.error (DecimalDivError.slippagePercent |avg - best|)
      else
        Except.ok (some
          { average_price := avg
            best_price := best
            slippage := |avg - best|
            slippage_percent := |avg - best| / best * 100
            levels_consumed := r.2.2
            total_cost := r.2.1 })

/-- Total size available on a list of levels. -/
def sumSize (levels : List OrderLevel) : ℚ := (levels.map OrderLevel.size).sum

/-- Total cost of consuming every level entirely. -/
def sumCost (levels : List OrderLevel) : ℚ :=
  (levels.map (fun l => l.size * l.price)).sum

/-- Order book whose best bid equals its best ask, so the bid-ask
spread is exactly zero. -/
def bookLocked : OrderBook := { bids := [⟨1/2, 1⟩], asks := [⟨1/2, 1⟩] }

/-- Concrete book used to witness the C8 theorem. -/
def witnessBookC8 : OrderBook := { bids := [⟨2/5, 1⟩], asks := [⟨3/5, 2⟩] }

/-- Book whose ask side contains a zero-size level after a level that
absorbs the whole requested size. -/
def bookZeroLevel : OrderBook := { asks := [⟨1, 2⟩, ⟨1, 0⟩] }

/-- Concrete book used to witness the C9 theorem. -/
def witnessBookC9 : OrderBook := { asks := [⟨1/2, 3⟩] }

/-- Concrete book used to witness the C10 theorem. -/
def witnessBookC10 : OrderBook := { bids := [⟨1/2, 1⟩] }

/-- A value placed in an outgoing request parameter dictionary. -/
inductive PVal where
  | str (s : String)
  | int (n : Int)
  deriving Repr, DecidableEq

/-- The `params` dictionary built by `CLOBAPIClient.get_price_history`
(`api.py` lines 282-292): `market` and `interval` always, then
`startTs`, `endTs` and `fidelity` each guarded by a Python truthiness
test (`if start_ts:` etc.), not an `is not None` test. -/
def priceHistoryParams (market_id interval : String)
    (start_ts end_ts fidelity : Option Int) : List (String × PVal) :=
  let ps := [("market", PVal.str market_id), ("interval", PVal.str interval)]
  let ps := if optIntTruthy start_ts then ps ++ [("startTs", PVal.int (start_ts.getD 0))] else ps
  let ps := if optIntTruthy end_ts then ps ++ [("endTs", PVal.int (end_ts.getD 0))] else ps
  if optIntTruthy fidelity then ps ++ [("fidelity", PVal.int (fidelity.getD 0))] else ps

/-- The `params` dictionary built by `DataAPIClient.get_user_trades`
(`data_api.py` lines 232-242): `address` and `limit` always, then
`market`, `start_ts` and `end_ts` each guarded by a truthiness test. -/
def userTradesParams (address : String) (market : Option String)
    (start_ts end_ts : Option Int) (limit : Int) : List (String × PVal) :=
  let ps := [("address", PVal.str address), ("limit", PVal.int limit)]
  let ps := if optStrTruthy market then ps ++ [("market", PVal.str (market.getD ""))] else ps
  let ps := if optIntTruthy start_ts then ps ++ [("start_ts", PVal.int (start_ts.getD 0))] else ps
  if optIntTruthy end_ts then ps ++ [("end_ts", PVal.int (end_ts.getD 0))] else ps

/-- Classification produced by `PolymarketURLParser.parse`
(`parser.py` lines 25-94): the `type`/`event_slug`/`market_slug`
entries of the returned dictionary, or a raised `InvalidURLError`. -/
inductive ParseOutcome where
  | event (event_slug : String)
  | eventMarket (event_slug market_slug : String)
  | market (market_slug : String)
  | invalid
  deriving Repr, DecidableEq

/-- The reserved single-segment paths excluded from bare-slug parsing
(`parser.py` line 88). -/
def reservedSlugs : List String :=
  ["markets", "elections", "leaderboard", "about", "docs", "help"]

/-- Search for the `EVENT_MARKET_PATTERN` regex
`/event/([^/]+)(?:/([^/?]+))?` over a canonical path given as its list
of segments: the first segment literally equal to `event` that is
followed by at least one further segment yields the match; the optional
second group is the segment after that, when present. -/
def findEventPattern : List String → Option (String × Option String)
  | "event" :: e :: rest => some (e, rest.head?)
  | _ :: rest => findEventPattern rest
  | [] => none

/-- Search for the `MARKET_DIRECT_PATTERN` regex `/market/([^/?]+)`
over a canonical segment list. -/
def findMarketPattern : List String → Option String
  | "market" :: m :: _ => some m
  | _ :: rest => findMarketPattern rest
  | [] => none

/-- `PolymarketURLParser.parse`, with the locator pre-split by
`urlparse` into its network location and its path segments (segments
are assumed canonical: non-empty, free of `/`, `?` and percent-escapes,
so `unquote` is the identity and the three regexes reduce to the
segment tests above; the reject-empty-URL check precedes `urlparse` and
is outside this function).  `ParseOutcome.invalid` models a raised
`InvalidURLError`. -/
def parseLocator (netloc : String) (segments : List String) : ParseOutcome :=
  if strIn "polymarket.com" netloc = false then ParseOutcome.invalid
  else
    match findEventPattern segments with
    | some (e, some m) => ParseOutcome.eventMarket e m
    | some (e, none) => ParseOutcome.event e
    | none =>
      match findMarketPattern segments with
      | some m => ParseOutcome.market m
      | none =>
        match segments with
        | [s] =>
          if reservedSlugs.contains s then ParseOutcome.invalid
          else ParseOutcome.market s
        | _ => ParseOutcome.invalid

/-- The retry ceiling (`utils/constants.py`: `MAX_RETRIES = 3`). -/
def MAX_RETRIES : Nat := 3

/-- Outcome of one `self.api.get_price_history` attempt inside
`_fetch_price_history_with_retry`: a truthy result, a falsy (empty)
result, an exception whose message contains `interval is too long`, or
any other exception. -/
inductive FetchOutcome where
  | success
  | empty
  | errTooLong
  | errOther
  deriving Repr, DecidableEq

/-- How `_fetch_price_history_with_retry` terminates. -/
inductive FetchResult where
  | histories
  | noData
  | raisedTooLong
  | raisedOther
  deriving Repr, DecidableEq

/-- The `while retry_count < MAX_RETRIES` loop of
`PolymarketExtractor._fetch_price_history_with_retry` (`extractor.py`
lines 289-321).  The transport layer is abstracted by `oracle`, giving
the outcome of the attempt numbered `retry_count` on a window; the
`fuel` argument is `MAX_RETRIES - retry_count`, the number of loop
iterations still allowed.  Besides the final result the model returns
the list of `(current_start, current_end)` windows actually attempted,
in order. -/
def fetchRetryLoop (oracle : Nat → Int × Int → FetchOutcome) :
    Nat → Nat → Int → Int → List (Int × Int) × FetchResult
  | 0, _, _, _ => ([], FetchResult.noData)
  | fuel + 1, retry_count, current_start, current_end =>
    match oracle retry_count (current_start, current_end) with
    | FetchOutcome.success =>
      ([(current_start, current_end)], FetchResult.histories)
    | FetchOutcome.empty =>
      ([(current_start, current_end)], FetchResult.noData)
    | FetchOutcome.errTooLong =>
      if retry_count < MAX_RETRIES - 1 then
        let time_span := current_end - current_start
        let new_span := Int.fdiv time_span 2
        let p := fetchRetryLoop oracle fuel (retry_count + 1)
          (current_end - new_span) current_end
        ((current_start, current_end) :: p.1, p.2)
      else ([(current_start, current_end)], FetchResult.raisedTooLong)
    | FetchOutcome.errOther =>
      ([(current_start, current_end)], FetchResult.raisedOther)

/-- `_fetch_price_history_with_retry` entry point: `retry_count = 0`,
`current_start = start_ts`, `current_end = end_ts`. -/
def fetchPriceHistoryWithRetry (oracle : Nat → Int × Int → FetchOutcome)
    (start_ts end_ts : Int) : List (Int × Int) × FetchResult :=
  fetchRetryLoop oracle MAX_RETRIES 0 start_ts end_ts

/-- Oracle simulating one `interval is too long` failure followed by
success. -/
def witnessOracleC1 : Nat → Int × Int → FetchOutcome :=
  fun retry_count _ =>
    if retry_count = 0 then FetchOutcome.errTooLong else FetchOutcome.success

/-- The Gamma client state seen by `get_market_by_slug` (`api.py` lines
92-112): the server response to the direct `?slug=` query, and the
first batch of active markets scanned by the fallback
(`get_markets(limit=1000, active=True)`). -/
structure GammaClient where
  slugQuery : String → List GammaPayload
  allActiveMarkets : List GammaPayload

/-- `GammaAPIClient.get_market_by_slug`: take the first result of the
direct slug query when non-empty, else scan the active markets for an
exact or substring slug match. -/
def GammaClient.get_market_by_slug (c : GammaClient) (slug : String) :
    Option Market :=
  match c.slugQuery slug with
  | g :: _ => some (Market.from_gamma_response g)
  | [] =>
    (c.allActiveMarkets.map Market.from_gamma_response).find?
      (fun m => m.slug == slug || strIn slug m.slug)

/-- `CLOBAPIClient.find_market_by_slug` (`api.py` lines 226-243): walk
the cursor-paginated market listing (modelled as the list of pages the
cursor chain traverses) and return the first payload whose
`market_slug` matches. -/
def findMarketBySlug (pages : List (List ClobPayload)) (slug : String) :
    Option Market :=
  match pages with
  | [] => none
  | page :: rest =>
    match page.find? (fun d => d.market_slug == slug) with
    | some d => some (Market.from_clob_response d)
    | none => findMarketBySlug rest slug

/-- The state behind `PolymarketAPI.get_market`: the CLOB page chain
and the Gamma client. -/
structure PolymarketAPI where
  clobPages : List (List ClobPayload)
  gamma : GammaClient

/-- `PolymarketAPI.get_market` (`api.py` lines 519-544): CLOB first,
Gamma on fallback, `None` when both miss. -/
def PolymarketAPI.get_market (api : PolymarketAPI) (slug : String) :
    Option Market :=
  match findMarketBySlug api.clobPages slug with
  | some m => some m
  | none => api.gamma.get_market_by_slug slug

/-- API state whose trading source lacks the slug `meta-only` but whose
metadata source answers the direct query for it. -/
def witnessApiC3 : PolymarketAPI :=
  { clobPages := [[{ market_slug := "other" }]]
    gamma :=
      { slugQuery := fun s =>
          if s = "meta-only" then [{ slug := "meta-only" }] else []
        allActiveMarkets := [] } }

/-- The `parts.index('will')` / `parts[idx + 1]` step of
`get_column_prefix`: the token following the first `will`, when one
follows it. -/
def willSubject : List String → Option String
  | [] => none
  | p :: rest => if p = "will" then rest.head? else willSubject rest

/-- `get_column_prefix` (`utils/utils.py` lines 11-37): prefer the
market's group item title (lower-cased, spaces to underscores) when
truthy; else the dash-separated token following `will` in the slug when
present; else the first `max_length` characters of the slug. -/
def get_column_prefix (market : Market) (market_slug : String)
    (max_length : Nat := 20) : String :=
  if optStrTruthy market.group_item_title then
    pyReplaceChar ' ' '_' (pyLower (market.group_item_title.getD ""))
  else
    match willSubject (pySplit '-' market_slug) with
    | some subject => subject
    | none => pyTake max_length market_slug

/-- The column-naming rule shared by both merge engines:
`f'{prefix}_{outcome.lower()}'`. -/
def columnName (pref outcome : String) : String :=
  pref ++ "_" ++ pyLower outcome

/-- CPython dict assignment `d[k] = v` on an association list: update
in place when the key is present, append otherwise. -/
def dictInsert {α β : Type} [BEq α] (k : α) (v : β) :
    List (α × β) → List (α × β)
  | [] => [(k, v)]
  | p :: rest => if p.1 == k then (k, v) :: rest else p :: dictInsert k v rest

/-- CPython dict lookup `d.get(k)`. -/
def dictGet {α β : Type} [BEq α] (k : α) : List (α × β) → Option β
  | [] => none
  | p :: rest => if p.1 == k then some p.2 else dictGet k rest

/-- One value of the `event_data.market_data` mapping: a market plus
its `price_histories` mapping outcome name to price points, a price
point being a `(timestamp, price)` pair. -/
structure MarketHistEntry where
  market : Market
  histories : List (String × List (Nat × ℚ))

/-- The `(column_name, price_points)` series both merge engines
enumerate: for every market of the event (in mapping order) and every
outcome history of that market, the column name derived by the shared
prefix rule. -/
def eventSeries (ev : List (String × MarketHistEntry)) :
    List (String × List (Nat × ℚ)) :=
  ev.flatMap (fun ms =>
    ms.2.histories.map (fun oh =>
      (columnName ( get_column_prefix ms.2.market ms.1) oh.1, oh.2)))

/-- One `timestamp_data[point.timestamp][column_name] = point.price`
assignment of the streaming engine. -/
def insertPoint (col : String) (pt : Nat × ℚ)
    (td : List (Nat × List (String × ℚ))) : List (Nat × List (String × ℚ)) :=
  dictInsert pt.1 (dictInsert col pt.2 ((dictGet pt.1 td).getD [])) td

/-- Insert every point of one series, in order. -/
def insertSeries (col : String) (pts : List (Nat × ℚ))
    (td : List (Nat × List (String × ℚ))) : List (Nat × List (String × ℚ)) :=
  match pts with
  | [] => td
  | pt :: rest => insertSeries col rest (insertPoint col pt td)

/-- The `timestamp_data` defaultdict of `iterate_event_rows`
(`utils/processor.py` lines 440-453): timestamp to `{column: price}`,
later writes overwriting earlier ones. -/
def buildTimestampData : List (String × List (Nat × ℚ)) →
    List (Nat × List (String × ℚ)) → List (Nat × List (String × ℚ))
  | [], td => td
  | s :: rest, td => buildTimestampData rest (insertSeries s.1 s.2 td)

/-- Boolean order backing Python `sorted` on timestamps. -/
def natLe (a b : Nat) : Bool := Nat.ble a b

/-- Insert into a `natLe`-sorted list, keeping it sorted. -/
def insertSorted (a : Nat) : List Nat → List Nat
  | [] => [a]
  | b :: rest => if natLe a b then a :: b :: rest else b :: insertSorted a rest

/-- Sorting of timestamp lists (Python `sorted` / the sorted union index
of a pandas outer join); insertion sort, which agrees with any other
sort on the duplicate-free lists it is applied to. -/
def sortNat (l : List Nat) : List Nat := l.foldr insertSorted []

/-- The per-row forward fill of the streaming engine: columns missing
from the current row are taken from `prev_values`, appended in
`prev_values` order. -/
def fillRow (prev current : List (String × ℚ)) : List (String × ℚ) :=
  match prev with
  | [] => current
  | cv :: rest =>
    match dictGet cv.1 current with
    | some _ => fillRow rest current
    | none => fillRow rest (current ++ [cv])

/-- `prev_values.update(current_row)`. -/
def dictUpdateAll (prev current : List (String × ℚ)) : List (String × ℚ) :=
  match current with
  | [] => prev
  | cv :: rest => dictUpdateAll (dictInsert cv.1 cv.2 prev) rest

/-- The row-emitting loop of `iterate_event_rows`: walk the sorted
timestamps, forward-filling each row from the running last-known-value
state. -/
def iterateRowsAux (td : List (Nat × List (String × ℚ))) :
    List Nat → List (String × ℚ) → List (Nat × List (String × ℚ))
  | [], _ => []
  | ts :: rest, prev =>
    let current := fillRow prev ((dictGet ts td).getD [])
    (ts, current) :: iterateRowsAux td rest (dictUpdateAll prev current)

/-- `DataProcessor.iterate_event_rows` (`utils/processor.py` lines
429-468), materialised as the list of yielded `(timestamp, row)`
pairs. -/
def iterate_event_rows (ev : List (String × MarketHistEntry)) :
    List (Nat × List (String × ℚ)) :=
  let td := buildTimestampData (eventSeries ev) []
  iterateRowsAux td (sortNat (td.map Prod.fst)) []

/-- A pandas DataFrame with a timestamp index: the column names and the
rows of per-column optional values (`NaN` is `none`). -/
structure Frame where
  cols : List String
  rows : List (Nat × List (Option ℚ))

/-- The single-column DataFrame built for one outcome history. -/
def seriesFrame (col : String) (pts : List (Nat × ℚ)) : Frame :=
  { cols := [col], rows := pts.map (fun pt => (pt.1, [some pt.2])) }

/-- Index-based row lookup (used by the join on unique indexes). -/
def frameRowLookup (f : Frame) (ts : Nat) : Option (List (Option ℚ)) :=
  (f.rows.find? (fun r => r.1 == ts)).map Prod.snd

/-- An all-`NaN` row of a frame. -/
def noneRow (f : Frame) : List (Option ℚ) := f.cols.map (fun _ => none)

/-- `DataFrame.join(other, how='outer')` for frames with unique
indexes: align the two frames on the sorted union of their indexes,
padding missing rows with `NaN`.  (On duplicate index values pandas
instead multiplies rows; the equivalence theorem below therefore
assumes the strictly-increasing-timestamp invariant documented for
`PriceHistory`, and the C4 counterexample goes through the
single-frame path, which performs no join.) -/
def joinFrames (a b : Frame) : Frame :=
  { cols := a.cols ++ b.cols
    rows := (sortNat (a.rows.map Prod.fst ++ b.rows.map Prod.fst).dedup).map
      (fun ts =>
        (ts, ((frameRowLookup a ts).getD (noneRow a)) ++
          ((frameRowLookup b ts).getD (noneRow b)))) }

/-- `result.ffill(inplace=True)`: forward-fill every column
independently down the rows. -/
def ffillRows : List (Nat × List (Option ℚ)) → List (Option ℚ) →
    List (Nat × List (Option ℚ))
  | [], _ => []
  | r :: rest, prev =>
    (r.1, List.zipWith (fun pv cv => match cv with | some v => some v | none => pv) prev r.2) ::
      ffillRows rest (List.zipWith (fun pv cv => match cv with | some v => some v | none => pv) prev r.2)

/-- Forward fill a whole frame. -/
def ffillFrame (f : Frame) : Frame :=
  { cols := f.cols, rows := ffillRows f.rows (noneRow f) }

/-- `DataProcessor.merge_event_price_histories` (`utils/processor.py`
lines 84-135): one single-column DataFrame per non-empty outcome
history, outer-joined left to right, then forward-filled.  (The final
`reset_index` only moves the timestamp into a column and is left
implicit in the row representation.) -/
def merge_event_price_histories (ev : List (String × MarketHistEntry)) : Frame :=
  let dfs := ((eventSeries ev).filter (fun s => !s.2.isEmpty)).map
    (fun s => seriesFrame s.1 s.2)
  match dfs with
  | [] => { cols := [], rows := [] }
  | d :: rest => ffillFrame (rest.foldl joinFrames d)

/-- Index of the first occurrence of a column label. -/
def colIndex (c : String) : List String → Option Nat
  | [] => none
  | a :: rest => if a == c then some 0 else (colIndex c rest).map (fun j => j + 1)

/-- Cell of a frame by row position and column name. -/
def frameCell (f : Frame) (i : Nat) (c : String) : Option ℚ :=
  match f.rows[i]? with
  | none => none
  | some r =>
    match colIndex c f.cols with
    | none => none
    | some j => (r.2[j]?).join

/-- First-some choice: `oAlt a b` is `a` when `a` is `some`, else
`b`. -/
def oAlt {α : Type} (a b : Option α) : Option α :=
  match a with
  | some v => some v
  | none => b

/-- All points carried under the column name `c` (concatenated in
series order). -/
def colPoints (series : List (String × List (Nat × ℚ))) (c : String) :
    List (Nat × ℚ) :=
  (series.filter (fun s => s.1 == c)).flatMap Prod.snd

/-- The value written for a column at exactly time `ts` (last write
wins). -/
def exactVal (pts : List (Nat × ℚ)) (ts : Nat) : Option ℚ :=
  pts.foldl (fun acc pt => if pt.1 == ts then some pt.2 else acc) none

/-- The forward-filled value of a column at time `ts`: its last point
at or before `ts`. -/
def ffVal (pts : List (Nat × ℚ)) (ts : Nat) : Option ℚ :=
  pts.foldl (fun acc pt => if pt.1 ≤ ts then some pt.2 else acc) none

/-- The forward-filled value strictly before time `ts`. -/
def ffValLT (pts : List (Nat × ℚ)) (ts : Nat) : Option ℚ :=
  pts.foldl (fun acc pt => if pt.1 < ts then some pt.2 else acc) none

/-- The reference cell model both merge engines are compared against:
the forward-filled value of column `c` at time `ts`. -/
def specCell (series : List (String × List (Nat × ℚ))) (c : String)
    (ts : Nat) : Option ℚ :=
  ffVal (colPoints series c) ts

/-- All point timestamps of an event's series. -/
def allTs (series : List (String × List (Nat × ℚ))) : List Nat :=
  series.flatMap (fun s => s.2.map Prod.fst)

/-- Cell of a frame by index value and column position: the looked-up
row's entry, or missing when the index value or the position is
absent. -/
def frameVal (f : Frame) (ts : Nat) (j : Nat) : Option ℚ :=
  (((frameRowLookup f ts).getD (noneRow f))[j]?).join

/-- Positional cell semantics of a list of frames laid side by side:
position `j` falls into the frame whose column block contains it. -/
def frameValSeq : List Frame → Nat → Nat → Option ℚ
  | [], _, _ => none
  | f :: rest, ts, j =>
    if j < f.cols.length then frameVal f ts j
    else frameValSeq rest ts (j - f.cols.length)

/-- The joined (not yet forward-filled) frame the merge engine builds
when the non-empty series are `ne0 :: neRest`. -/
def mergeJoined (ne0 : String × List (Nat × ℚ))
    (neRest : List (String × List (Nat × ℚ))) : Frame :=
  (neRest.map (fun s => seriesFrame s.1 s.2)).foldl joinFrames
    (seriesFrame ne0.1 ne0.2)

/-- The last value written by a point lying strictly below every
timestamp of `tss` (the streaming loop's `prev_values` contents for the
remaining timestamp list `tss`). -/
def ffValBelow (pts : List (Nat × ℚ)) (tss : List Nat) : Option ℚ :=
  pts.foldl
    (fun acc pt => if tss.all (fun t2 => decide (pt.1 < t2)) then some pt.2 else acc)
    none

/-- Event with one market and one outcome whose history carries two
points at the same timestamp, violating the documented `PriceHistory`
ordering invariant. -/
def dupTsMarket : Market :=
  { slug := "m"
    condition_id := "c"
    question := "q"
    outcomes := ["Yes"]
    token_ids := ["t"]
    active := true
    closed := false }

def dupTsEvent : List (String × MarketHistEntry) :=
  [("m", { market := dupTsMarket, histories := [("Yes", [(1, 2), (1, 3)])] })]

/-- Concrete event used to witness the C4 equivalence theorem: two
markets, two outcomes each, three timestamps each, partially
overlapping. -/
def witnessMarketAlpha : Market :=
  { slug := "will-alpha-win"
    condition_id := "c1"
    question := "q1"
    outcomes := ["Yes", "No"]
    token_ids := ["t1", "t2"]
    active := true
    closed := false }

def witnessMarketBeta : Market :=
  { slug := "will-beta-win"
    condition_id := "c2"
    question := "q2"
    outcomes := ["Yes", "No"]
    token_ids := ["t3", "t4"]
    active := true
    closed := false }

def witnessEventC4 : List (String × MarketHistEntry) :=
  [("will-alpha-win",
    { market := witnessMarketAlpha
      histories := [("Yes", [(1, 2), (2, 3), (3, 4)]), ("No", [(1, 5), (2, 6), (3, 7)])] }),
   ("will-beta-win",
    { market := witnessMarketBeta
      histories := [("Yes", [(2, 8), (3, 9), (4, 10)]), ("No", [(2, 11), (3, 12), (4, 13)])] })]

theorem optStrTruthy_eq_true {o : Option String} :
    optStrTruthy o = true ↔ ∃ s, o = some s ∧ s ≠ "" := by
  cases o with
  | none => simp [optStrTruthy]
  | some s => simp [optStrTruthy]

theorem optIntTruthy_eq_true {o : Option Int} :
    optIntTruthy o = true ↔ ∃ n, o = some n ∧ n ≠ 0 := by
  cases o with
  | none => simp [optIntTruthy]
  | some n => simp [optIntTruthy]

theorem extractTokens_length (ts : List ClobToken) :
    (extractTokens ts).1.length = (extractTokens ts).2.length := by
  induction ts with
  | nil => rfl
  | cons t rest ih =>
    simp only [extractTokens]
    split
    · simpa using ih
    · exact ih

theorem isEmpty_or_all_empty (l : List String) :
    (l.isEmpty || l.all (fun tid => tid == "")) = l.all (fun tid => tid == "") := by
  cases l <;> simp

/-- C2: `is_inactive_negrisk_option(m)` is true iff `m.neg_risk` is true,
`m.neg_risk_market_id` is set and non-empty, and every entry of
`m.token_ids` is the empty string; in particular it is false whenever at
least one token id is non-empty. -/
theorem is_inactive_negrisk_option_spec (m : Market) :
    (m.is_inactive_negrisk_option = true ↔
      (m.neg_risk = true ∧ (∃ s, m.neg_risk_market_id = some s ∧ s ≠ "") ∧
        ∀ t ∈ m.token_ids, t = "")) ∧
    (∀ t ∈ m.token_ids, t ≠ "" → m.is_inactive_negrisk_option = false) := by
  constructor
  · rw [Market.is_inactive_negrisk_option, isEmpty_or_all_empty]
    simp only [Bool.and_eq_true, optStrTruthy_eq_true, List.all_eq_true, beq_iff_eq]
    tauto
  · intro t ht hne
    rw [Market.is_inactive_negrisk_option, isEmpty_or_all_empty]
    simp only [Bool.and_eq_false_iff, List.all_eq_false]
    right
    exact ⟨t, ht, by simpa using hne⟩

theorem is_inactive_negrisk_option_spec_witness :
    witnessMarketC2.is_inactive_negrisk_option = false :=
  (is_inactive_negrisk_option_spec witnessMarketC2).2 "tok1" (by decide) (by decide)

/-- C5 counterexample: `from_gamma_response` parses `outcomes` and
`clobTokenIds` independently and never checks that the two lists have
equal length, so an ill-formed payload with one outcome and two token
ids yields a `Market` violating `len(outcomes) == len(token_ids)`. -/
theorem from_gamma_response_length_counterexample :
    (Market.from_gamma_response gammaMismatchPayload).outcomes.length ≠
      (Market.from_gamma_response gammaMismatchPayload).token_ids.length := by
  decide

/-- C5 (amended): every `Market` built by `from_clob_response` satisfies
`len(outcomes) == len(token_ids)`; a `Market` built by
`from_gamma_response` satisfies it iff the two decoded payload lists
already have equal lengths (which holds for all well-formed payloads but
not for arbitrary ill-formed ones). -/
theorem market_outcomes_token_ids_length :
    (∀ c : ClobPayload,
      (Market.from_clob_response c).outcomes.length =
        (Market.from_clob_response c).token_ids.length) ∧
    (∀ g : GammaPayload,
      ((Market.from_gamma_response g).outcomes.length =
          (Market.from_gamma_response g).token_ids.length ↔
        (g.outcomes.getD []).length = (g.clobTokenIds.getD []).length)) := by
  constructor
  · intro c
    exact (extractTokens_length c.tokens).symm
  · intro g
    exact Iff.rfl

theorem sumSize_nonneg {levels : List OrderLevel}
    (h : ∀ l ∈ levels, 0 < l.size) : 0 ≤ sumSize levels := by
  induction levels with
  | nil => simp [sumSize]
  | cons l rest ih =>
    have h0 := h l (by simp)
    have hr := ih (fun x hx => h x (by simp [hx]))
    simp only [sumSize, List.map_cons, List.sum_cons]
    have : (0 : ℚ) ≤ l.size := le_of_lt h0
    calc (0 : ℚ) ≤ l.size + 0 := by linarith
    _ ≤ l.size + sumSize rest := by
      simpa [sumSize] using add_le_add_left hr l.size

theorem impactLoop_exact (levels : List OrderLevel) (t : ℚ) (c : Nat)
    (h : ∀ l ∈ levels, 0 < l.size) :
    impactLoop levels (sumSize levels) t c =
      (0, t + sumCost levels, c + levels.length) := by
  induction levels generalizing t c with
  | nil => simp [impactLoop, sumSize, sumCost]
  | cons l rest ih =>
    have hl := h l (by simp)
    have hrest : ∀ x ∈ rest, 0 < x.size := fun x hx => h x (by simp [hx])
    have hsum : 0 ≤ sumSize rest := sumSize_nonneg hrest
    have hpos : 0 < sumSize (l :: rest) := by
      simp only [sumSize, List.map_cons, List.sum_cons]
      have := sumSize_nonneg hrest
      simp only [sumSize] at this
      linarith
    have hmin : min (sumSize (l :: rest)) l.size = l.size := by
      apply min_eq_right
      simp only [sumSize, List.map_cons, List.sum_cons]
      simp only [sumSize] at hsum
      linarith
    simp only [impactLoop, not_le.mpr hpos, if_neg (not_le.mpr hpos), hmin]
    have hrem : sumSize (l :: rest) - l.size = sumSize rest := by
      simp only [sumSize, List.map_cons, List.sum_cons]; ring
    rw [hrem, ih (t + l.size * l.price) (c + 1) hrest]
    simp only [sumCost, List.map_cons, List.sum_cons, List.length_cons, if_false,
      Prod.mk.injEq]
    exact ⟨trivial, by ring, by omega⟩

theorem impactLoop_insufficient (levels : List OrderLevel) (rem t : ℚ) (c : Nat)
    (h : ∀ l ∈ levels, 0 < l.size) (hgt : sumSize levels < rem) :
    (impactLoop levels rem t c).1 = rem - sumSize levels := by
  induction levels generalizing rem t c with
  | nil => simp [impactLoop, sumSize]
  | cons l rest ih =>
    have hl := h l (by simp)
    have hrest : ∀ x ∈ rest, 0 < x.size := fun x hx => h x (by simp [hx])
    have hsum : 0 ≤ sumSize rest := sumSize_nonneg hrest
    have hcons : sumSize (l :: rest) = l.size + sumSize rest := by
      simp [sumSize]
    have hrempos : 0 < rem := by rw [hcons] at hgt; linarith
    have hmin : min rem l.size = l.size := by
      apply min_eq_right; rw [hcons] at hgt; linarith
    simp only [impactLoop, if_neg (not_le.mpr hrempos), hmin]
    have hgt2 : sumSize rest < rem - l.size := by rw [hcons] at hgt; linarith
    rw [ih (rem - l.size) (t + l.size * l.price) (c + 1) hrest hgt2, hcons]
    ring

theorem pyLower_buy : (pyLower "buy" == "buy") = true := by decide

theorem pyLower_sell : (pyLower "sell" == "buy") = false := by decide

/-- Unfolding of `get_market_impact` when the requested side is a
non-empty list of levels. -/
theorem get_market_impact_cons (b : OrderBook) (size : ℚ) (side : String)
    (l0 : OrderLevel) (rest : List OrderLevel)
    (hlev : impactLevels b side = l0 :: rest) :
    b.get_market_impact size side =
      (if 0 < (impactLoop (l0 :: rest) size 0 0).1 then Except.ok none
       else if size = 0 then
         Except.error (DecimalDivError.averagePrice (impactLoop (l0 :: rest) size 0 0).2.1)
       else if l0.price = 0 then
         Except.error (DecimalDivError.slippagePercent
           |(impactLoop (l0 :: rest) size 0 0).2.1 / size - l0.price|)
       else
         Except.ok (some
           { average_price := (impactLoop (l0 :: rest) size 0 0).2.1 / size
             best_price := l0.price
             slippage := |(impactLoop (l0 :: rest) size 0 0).2.1 / size - l0.price|
             slippage_percent :=
               |(impactLoop (l0 :: rest) size 0 0).2.1 / size - l0.price| / l0.price * 100
             levels_consumed := (impactLoop (l0 :: rest) size 0 0).2.2
             total_cost := (impactLoop (l0 :: rest) size 0 0).2.1 })) := by
  unfold OrderBook.get_market_impact
  rw [hlev]
  simp only [List.isEmpty_cons, Bool.false_eq_true, if_false, List.headD_cons]

/-- C8 counterexample: on a book with one bid and one ask at the same
price, `mid_price` and `spread` are present but `spread_percent` is
`None` (the Python truthiness guard `if self.mid_price and self.spread`
treats the zero `Decimal` spread as falsy), whereas the claim requires
`spread_percent = spread/mid*100 = 0`. -/
theorem spread_percent_counterexample :
    bookLocked.bids ≠ [] ∧ bookLocked.asks ≠ [] ∧
    bookLocked.mid_price = some (1/2) ∧ bookLocked.spread = some 0 ∧
    bookLocked.spread_percent = none := by
  refine ⟨by simp [bookLocked], by simp [bookLocked], ?_, ?_, ?_⟩
  · simp [bookLocked, OrderBook.mid_price, OrderBook.best_bid, OrderBook.best_ask]
  · simp [bookLocked, OrderBook.spread, OrderBook.best_bid, OrderBook.best_ask]
  · simp [bookLocked, OrderBook.spread_percent, OrderBook.mid_price, OrderBook.spread,
      OrderBook.best_bid, OrderBook.best_ask]

/-- C8 (amended): for every book with at least one bid and one ask,
`mid_price = (best_bid.price + best_ask.price)/2` and
`spread = best_ask.price - best_bid.price`; `spread_percent =
spread/mid*100` additionally requires both mid and spread to be
non-zero (it is `None` when the spread is zero, e.g. a locked book);
`mid_price` and `spread` are `None` when either side is empty; and when
the sides are sorted as on construction (bids descending, asks
ascending), the best bid is the highest bid and the best ask the lowest
ask. -/
theorem orderbook_stats_spec (b : OrderBook) (bid ask : OrderLevel)
    (hb : b.bids.head? = some bid) (ha : b.asks.head? = some ask) :
    b.mid_price = some ((bid.price + ask.price) / 2) ∧
    b.spread = some (ask.price - bid.price) ∧
    ((bid.price + ask.price) / 2 ≠ 0 → ask.price - bid.price ≠ 0 →
      b.spread_percent =
        some ((ask.price - bid.price) / ((bid.price + ask.price) / 2) * 100)) ∧
    (∀ c : OrderBook, c.bids = [] ∨ c.asks = [] →
      c.mid_price = none ∧ c.spread = none) ∧
    (b.bids.Sorted (fun x y => y.price ≤ x.price) →
      ∀ l ∈ b.bids, l.price ≤ bid.price) ∧
    (b.asks.Sorted (fun x y => x.price ≤ y.price) →
      ∀ l ∈ b.asks, ask.price ≤ l.price) := by
  have hmid : b.mid_price = some ((bid.price + ask.price) / 2) := by
    simp [OrderBook.mid_price, OrderBook.best_bid, OrderBook.best_ask, hb, ha]
  have hspread : b.spread = some (ask.price - bid.price) := by
    simp [OrderBook.spread, OrderBook.best_bid, OrderBook.best_ask, hb, ha]
  refine ⟨hmid, hspread, ?_, ?_, ?_, ?_⟩
  · intro hm hs
    simp [OrderBook.spread_percent, hmid, hspread, hm, hs]
  · intro c hc
    rcases hc with hc | hc
    · constructor <;>
        simp [OrderBook.mid_price, OrderBook.spread, OrderBook.best_bid,
          OrderBook.best_ask, hc]
    · constructor <;>
        (simp only [OrderBook.mid_price, OrderBook.spread, OrderBook.best_bid,
          OrderBook.best_ask, hc, List.head?_nil]
         cases c.bids.head? <;> rfl)
  · intro hs l hl
    cases hbids : b.bids with
    | nil => rw [hbids] at hl; cases hl
    | cons x xs =>
      rw [hbids] at hb hl hs
      simp only [List.head?_cons, Option.some.injEq] at hb
      subst hb
      rcases List.mem_cons.mp hl with h | h
      · subst h; exact le_refl _
      · exact (List.sorted_cons.mp hs).1 l h
  · intro hs l hl
    cases hasks : b.asks with
    | nil => rw [hasks] at hl; cases hl
    | cons x xs =>
      rw [hasks] at ha hl hs
      simp only [List.head?_cons, Option.some.injEq] at ha
      subst ha
      rcases List.mem_cons.mp hl with h | h
      · subst h; exact le_refl _
      · exact (List.sorted_cons.mp hs).1 l h

theorem orderbook_stats_spec_witness :
    witnessBookC8.mid_price = some (1/2) ∧
    witnessBookC8.spread = some (1/5) ∧
    witnessBookC8.spread_percent = some 40 := by
  have h := orderbook_stats_spec witnessBookC8 ⟨2/5, 1⟩ ⟨3/5, 2⟩ rfl rfl
  refine ⟨?_, ?_, ?_⟩
  · rw [h.1]; norm_num
  · rw [h.2.1]; norm_num
  · rw [h.2.2.1 (by norm_num) (by norm_num)]; norm_num

theorem impactLevels_bookZeroLevel :
    impactLevels bookZeroLevel "buy" = [⟨1, 2⟩, ⟨1, 0⟩] := by
  simp [impactLevels, bookZeroLevel, pyLower_buy]

/-- C9 counterexample: on `bookZeroLevel`, the buy side has 2 levels and
total available size 2, but a request of exactly that total consumes
only 1 level (the loop stops as soon as the remaining size reaches
zero), so `levels_consumed` does not equal the number of levels on the
side as the claim states. -/
theorem get_market_impact_total_counterexample :
    bookZeroLevel.get_market_impact 2 "buy" =
      Except.ok (some
        { average_price := 1
          best_price := 1
          slippage := 0
          slippage_percent := 0
          levels_consumed := 1
          total_cost := 2 }) ∧
    (impactLevels bookZeroLevel "buy").length = 2 ∧
    sumSize (impactLevels bookZeroLevel "buy") = 2 := by
  have hloop : impactLoop [⟨1, 2⟩, ⟨1, 0⟩] 2 0 0 = (0, 2, 1) := by
    norm_num [impactLoop, min_def]
  refine ⟨?_, by simp [impactLevels_bookZeroLevel], ?_⟩
  · rw [get_market_impact_cons bookZeroLevel 2 "buy" ⟨1, 2⟩ [⟨1, 0⟩]
      impactLevels_bookZeroLevel, hloop]
    norm_num
  · rw [impactLevels_bookZeroLevel]
    norm_num [sumSize]

/-- C9 (amended): for a requested side that is non-empty and whose
levels all have positive size and positive price (so that the final
slippage division cannot raise), requesting exactly the total available
size returns a result consuming all levels, and requesting any size
strictly greater returns `None` (a valid insufficient-liquidity
outcome, not an error and not a partial fill). -/
theorem market_impact_full_consumption_spec (b : OrderBook) (side : String)
    (hne : impactLevels b side ≠ [])
    (hsz : ∀ l ∈ impactLevels b side, 0 < l.size)
    (hpr : ∀ l ∈ impactLevels b side, 0 < l.price) :
    (∃ r, b.get_market_impact (sumSize (impactLevels b side)) side =
        Except.ok (some r) ∧
      r.levels_consumed = (impactLevels b side).length) ∧
    (∀ sz, sumSize (impactLevels b side) < sz →
      b.get_market_impact sz side = Except.ok none) := by
  obtain ⟨l0, rest, hlev⟩ : ∃ l0 rest, impactLevels b side = l0 :: rest := by
    cases h : impactLevels b side with
    | nil => exact absurd h hne
    | cons a l => exact ⟨a, l, rfl⟩
  rw [hlev] at hsz hpr ⊢
  have hl0pr := hpr l0 (by simp)
  have hrest : 0 ≤ sumSize rest :=
    sumSize_nonneg (fun x hx => hsz x (by simp [hx]))
  have hsumpos : 0 < sumSize (l0 :: rest) := by
    have := hsz l0 (by simp)
    simp only [sumSize, List.map_cons, List.sum_cons]
    simp only [sumSize] at hrest
    linarith
  constructor
  · have hloop := impactLoop_exact (l0 :: rest) 0 0 hsz
    simp only [zero_add] at hloop
    have heq : b.get_market_impact (sumSize (l0 :: rest)) side = Except.ok (some
        { average_price := sumCost (l0 :: rest) / sumSize (l0 :: rest)
          best_price := l0.price
          slippage := |sumCost (l0 :: rest) / sumSize (l0 :: rest) - l0.price|
          slippage_percent :=
            |sumCost (l0 :: rest) / sumSize (l0 :: rest) - l0.price| / l0.price * 100
          levels_consumed := (l0 :: rest).length
          total_cost := sumCost (l0 :: rest) }) := by
      rw [get_market_impact_cons b _ side l0 rest hlev, hloop]
      simp [ne_of_gt hsumpos, ne_of_gt hl0pr]
    exact ⟨_, heq, rfl⟩
  · intro sz hgt
    have hloop2 := impactLoop_insufficient (l0 :: rest) sz 0 0 hsz hgt
    have hpos2 : 0 < (impactLoop (l0 :: rest) sz 0 0).1 := by
      rw [hloop2]; linarith
    rw [get_market_impact_cons b sz side l0 rest hlev, if_pos hpos2]

theorem impactLevels_witnessBookC9 :
    impactLevels witnessBookC9 "buy" = [⟨1/2, 3⟩] := by
  simp [impactLevels, witnessBookC9, pyLower_buy]

theorem market_impact_full_consumption_spec_witness :
    (∃ r, witnessBookC9.get_market_impact
        (sumSize (impactLevels witnessBookC9 "buy")) "buy" =
        Except.ok (some r) ∧
      r.levels_consumed = (impactLevels witnessBookC9 "buy").length) ∧
    witnessBookC9.get_market_impact 4 "buy" = Except.ok none := by
  have h := market_impact_full_consumption_spec witnessBookC9 "buy"
    (by rw [impactLevels_witnessBookC9]; simp)
    (by rw [impactLevels_witnessBookC9]; norm_num)
    (by rw [impactLevels_witnessBookC9]; norm_num)
  refine ⟨h.1, h.2 4 ?_⟩
  rw [impactLevels_witnessBookC9]
  norm_num [sumSize]

/-- C10: the division `average_price = total_cost / size` never raises
for positive sizes, but with `size = 0` and a non-empty requested side
the loop exits immediately with `total_cost = 0` and the code evaluates
`0 / 0`, raising a decimal `InvalidOperation` instead of returning
`None` or a result — `size > 0` is an unstated precondition. -/
theorem market_impact_zero_size_spec :
    (∀ (b : OrderBook) (side : String) (sz : ℚ), 0 < sz →
      ∀ q, b.get_market_impact sz side ≠
        Except.error (DecimalDivError.averagePrice q)) ∧
    (∀ (b : OrderBook) (side : String), impactLevels b side ≠ [] →
      b.get_market_impact 0 side =
        Except.error (DecimalDivError.averagePrice 0)) := by
  constructor
  · intro b side sz hsz q
    cases hlev : impactLevels b side with
    | nil =>
      unfold OrderBook.get_market_impact
      rw [hlev]
      simp
    | cons l0 rest =>
      rw [get_market_impact_cons b sz side l0 rest hlev]
      split
      · simp
      · rw [if_neg (ne_of_gt hsz)]
        split <;> simp
  · intro b side hne
    obtain ⟨l0, rest, hlev⟩ : ∃ l0 rest, impactLevels b side = l0 :: rest := by
      cases h : impactLevels b side with
      | nil => exact absurd h hne
      | cons a l => exact ⟨a, l, rfl⟩
    have hloop : impactLoop (l0 :: rest) 0 0 0 = (0, 0, 0) := by
      simp [impactLoop]
    rw [get_market_impact_cons b 0 side l0 rest hlev, hloop]
    norm_num

theorem impactLevels_witnessBookC10 :
    impactLevels witnessBookC10 "sell" = [⟨1/2, 1⟩] := by
  simp [impactLevels, witnessBookC10, pyLower_sell]

theorem market_impact_zero_size_spec_witness :
    witnessBookC10.get_market_impact 1 "sell" ≠
      Except.error (DecimalDivError.averagePrice 0) ∧
    witnessBookC10.get_market_impact 0 "sell" =
      Except.error (DecimalDivError.averagePrice 0) :=
  ⟨market_impact_zero_size_spec.1 witnessBookC10 "sell" 1 (by norm_num) 0,
    market_impact_zero_size_spec.2 witnessBookC10 "sell"
      (by rw [impactLevels_witnessBookC10]; simp)⟩

theorem priceHistoryParams_keys (market_id interval : String)
    (start_ts end_ts fidelity : Option Int) :
    (priceHistoryParams market_id interval start_ts end_ts fidelity).map Prod.fst =
      ["market", "interval"] ++
        (if optIntTruthy start_ts then ["startTs"] else []) ++
        (if optIntTruthy end_ts then ["endTs"] else []) ++
        (if optIntTruthy fidelity then ["fidelity"] else []) := by
  simp only [priceHistoryParams]
  split_ifs <;> simp

theorem userTradesParams_keys (address : String) (market : Option String)
    (start_ts end_ts : Option Int) (limit : Int) :
    (userTradesParams address market start_ts end_ts limit).map Prod.fst =
      ["address", "limit"] ++
        (if optStrTruthy market then ["market"] else []) ++
        (if optIntTruthy start_ts then ["start_ts"] else []) ++
        (if optIntTruthy end_ts then ["end_ts"] else []) := by
  simp only [userTradesParams]
  split_ifs <;> simp

/-- C6 counterexample: calling `get_price_history` with `start_ts=0`
does NOT send `startTs`, and calling `get_user_trades` with
`start_ts=0` does NOT send `start_ts` — the code guards each optional
parameter with a Python truthiness test, so the falsy value `0` is
omitted, contrary to the claim that only `None` is omitted. -/
theorem param_zero_omitted_counterexample :
    ("startTs" ∉ (priceHistoryParams "tok" "1d" (some 0) none none).map Prod.fst) ∧
    ("start_ts" ∉ (userTradesParams "0xabc" none (some 0) none 100).map Prod.fst) := by
  decide

/-- C6 (amended): in `get_price_history` and `get_user_trades` an
optional request parameter is omitted exactly when its value is falsy —
`None`, integer `0`, or the empty string — and is included verbatim
otherwise; in particular `start_ts=0` or `end_ts=0` omit the parameter
rather than sending it. -/
theorem optional_param_omission_spec (market_id interval address : String)
    (market : Option String) (pstart pend pfid tstart tend : Option Int)
    (limit : Int) :
    (("startTs" ∈ (priceHistoryParams market_id interval pstart pend pfid).map Prod.fst) ↔
      ∃ n, pstart = some n ∧ n ≠ 0) ∧
    (∀ n, pstart = some n → n ≠ 0 →
      ("startTs", PVal.int n) ∈ priceHistoryParams market_id interval pstart pend pfid) ∧
    (("endTs" ∈ (priceHistoryParams market_id interval pstart pend pfid).map Prod.fst) ↔
      ∃ n, pend = some n ∧ n ≠ 0) ∧
    (∀ n, pend = some n → n ≠ 0 →
      ("endTs", PVal.int n) ∈ priceHistoryParams market_id interval pstart pend pfid) ∧
    (("fidelity" ∈ (priceHistoryParams market_id interval pstart pend pfid).map Prod.fst) ↔
      ∃ n, pfid = some n ∧ n ≠ 0) ∧
    (∀ n, pfid = some n → n ≠ 0 →
      ("fidelity", PVal.int n) ∈ priceHistoryParams market_id interval pstart pend pfid) ∧
    (("market" ∈ (userTradesParams address market tstart tend limit).map Prod.fst) ↔
      ∃ m, market = some m ∧ m ≠ "") ∧
    (∀ m, market = some m → m ≠ "" →
      ("market", PVal.str m) ∈ userTradesParams address market tstart tend limit) ∧
    (("start_ts" ∈ (userTradesParams address market tstart tend limit).map Prod.fst) ↔
      ∃ n, tstart = some n ∧ n ≠ 0) ∧
    (∀ n, tstart = some n → n ≠ 0 →
      ("start_ts", PVal.int n) ∈ userTradesParams address market tstart tend limit) ∧
    (("end_ts" ∈ (userTradesParams address market tstart tend limit).map Prod.fst) ↔
      ∃ n, tend = some n ∧ n ≠ 0) ∧
    (∀ n, tend = some n → n ≠ 0 →
      ("end_ts", PVal.int n) ∈ userTradesParams address market tstart tend limit) := by
  refine ⟨?_, ?_, ?_, ?_, ?_, ?_, ?_, ?_, ?_, ?_, ?_, ?_⟩
  · rw [priceHistoryParams_keys, ← optIntTruthy_eq_true]
    split_ifs <;> simp [*]
  · intro n hn hnz
    subst hn
    have ht : optIntTruthy (some n) = true := by simp [optIntTruthy, hnz]
    simp only [priceHistoryParams, ht, if_true]
    split_ifs <;> simp
  · rw [priceHistoryParams_keys, ← optIntTruthy_eq_true]
    split_ifs <;> simp [*]
  · intro n hn hnz
    subst hn
    have ht : optIntTruthy (some n) = true := by simp [optIntTruthy, hnz]
    simp only [priceHistoryParams, ht, if_true]
    split_ifs <;> simp
  · rw [priceHistoryParams_keys, ← optIntTruthy_eq_true]
    split_ifs <;> simp [*]
  · intro n hn hnz
    subst hn
    have ht : optIntTruthy (some n) = true := by simp [optIntTruthy, hnz]
    simp only [priceHistoryParams, ht, if_true]
    split_ifs <;> simp
  · rw [userTradesParams_keys, ← optStrTruthy_eq_true]
    split_ifs <;> simp [*]
  · intro m hm hmz
    subst hm
    have ht : optStrTruthy (some m) = true := by simp [optStrTruthy, hmz]
    simp only [userTradesParams, ht, if_true]
    split_ifs <;> simp
  · rw [userTradesParams_keys, ← optIntTruthy_eq_true]
    split_ifs <;> simp [*]
  · intro n hn hnz
    subst hn
    have ht : optIntTruthy (some n) = true := by simp [optIntTruthy, hnz]
    simp only [userTradesParams, ht, if_true]
    split_ifs <;> simp
  · rw [userTradesParams_keys, ← optIntTruthy_eq_true]
    split_ifs <;> simp [*]
  · intro n hn hnz
    subst hn
    have ht : optIntTruthy (some n) = true := by simp [optIntTruthy, hnz]
    simp only [userTradesParams, ht, if_true]
    split_ifs <;> simp

theorem optional_param_omission_spec_witness :
    (("startTs" ∈ (priceHistoryParams "tok" "1d" (some 5) none none).map Prod.fst) ∧
      ("startTs", PVal.int 5) ∈ priceHistoryParams "tok" "1d" (some 5) none none) ∧
    ¬ ("endTs" ∈ (priceHistoryParams "tok" "1d" (some 5) none none).map Prod.fst) ∧
    ("market", PVal.str "q") ∈ userTradesParams "0xabc" (some "q") none none 100 := by
  have h := optional_param_omission_spec "tok" "1d" "0xabc" (some "q")
    (some 5) none none none none 100
  refine ⟨⟨h.1.mpr ⟨5, rfl, by decide⟩, h.2.1 5 rfl (by decide)⟩, ?_, ?_⟩
  · intro hmem
    obtain ⟨n, hn, _⟩ := h.2.2.1.mp hmem
    cases hn
  · exact h.2.2.2.2.2.2.2.1 "q" rfl (by decide)

theorem findEventPattern_single (s : String) : findEventPattern [s] = none := by
  rw [findEventPattern.eq_def]
  split <;> simp_all [findEventPattern]

theorem findMarketPattern_single (s : String) : findMarketPattern [s] = none := by
  rw [findMarketPattern.eq_def]
  split <;> simp_all [findMarketPattern]

/-- C7 counterexample: the reserved-words list in the code is
`['markets', 'elections', 'leaderboard', 'about', 'docs', 'help']` — it
does not contain `portfolio`, so the locator
`https://polymarket.com/portfolio` is classified as a bare market slug
rather than rejected as the claim states. -/
theorem parse_portfolio_counterexample :
    parseLocator "polymarket.com" ["portfolio"] = ParseOutcome.market "portfolio" := by
  decide

/-- C7 (amended): for a locator on the expected domain whose path is a
single bare segment, `parse` classifies the segment as a bare market
slug unless it belongs to the fixed reserved set `{markets, elections,
leaderboard, about, docs, help}` (which does NOT include `portfolio`),
in which case it raises `InvalidURLError`; in particular
`https://polymarket.com/leaderboard` is rejected. -/
theorem parse_single_segment_spec (netloc s : String)
    (hnet : strIn "polymarket.com" netloc = true) :
    parseLocator netloc [s] =
      (if reservedSlugs.contains s then ParseOutcome.invalid
       else ParseOutcome.market s) ∧
    parseLocator netloc ["leaderboard"] = ParseOutcome.invalid := by
  constructor
  · simp [parseLocator, hnet, findEventPattern_single, findMarketPattern_single]
  · simp [parseLocator, hnet, findEventPattern_single, findMarketPattern_single,
      reservedSlugs]

theorem parse_single_segment_spec_witness :
    parseLocator "polymarket.com" ["my-market"] = ParseOutcome.market "my-market" ∧
    parseLocator "polymarket.com" ["leaderboard"] = ParseOutcome.invalid := by
  have h := parse_single_segment_spec "polymarket.com" "my-market" (by decide)
  refine ⟨?_, h.2⟩
  rw [h.1]
  decide

theorem fetchRetryLoop_trace_spec (oracle : Nat → Int × Int → FetchOutcome) :
    ∀ (fuel rc : Nat) (cs ce : Int),
      (fetchRetryLoop oracle fuel rc cs ce).1.length ≤ fuel ∧
      (0 < fuel → (fetchRetryLoop oracle fuel rc cs ce).1[0]? = some (cs, ce)) ∧
      (∀ i p q, (fetchRetryLoop oracle fuel rc cs ce).1[i]? = some p →
        (fetchRetryLoop oracle fuel rc cs ce).1[i + 1]? = some q →
        q.2 = p.2 ∧ q.1 = p.2 - Int.fdiv (p.2 - p.1) 2 ∧
        oracle (rc + i) p = FetchOutcome.errTooLong) := by
  intro fuel
  induction fuel with
  | zero =>
    intro rc cs ce
    refine ⟨by simp [fetchRetryLoop], by omega, ?_⟩
    intro i p q hp hq
    simp [fetchRetryLoop] at hp
  | succ fuel ih =>
    intro rc cs ce
    cases horacle : oracle rc (cs, ce) with
    | success =>
      refine ⟨by simp [fetchRetryLoop, horacle], ?_, ?_⟩
      · intro _; simp [fetchRetryLoop, horacle]
      · intro i p q hp hq
        simp only [fetchRetryLoop, horacle, List.getElem?_cons_succ,
          List.getElem?_nil] at hq
        exact Option.noConfusion hq
    | empty =>
      refine ⟨by simp [fetchRetryLoop, horacle], ?_, ?_⟩
      · intro _; simp [fetchRetryLoop, horacle]
      · intro i p q hp hq
        simp only [fetchRetryLoop, horacle, List.getElem?_cons_succ,
          List.getElem?_nil] at hq
        exact Option.noConfusion hq
    | errOther =>
      refine ⟨by simp [fetchRetryLoop, horacle], ?_, ?_⟩
      · intro _; simp [fetchRetryLoop, horacle]
      · intro i p q hp hq
        simp only [fetchRetryLoop, horacle, List.getElem?_cons_succ,
          List.getElem?_nil] at hq
        exact Option.noConfusion hq
    | errTooLong =>
      by_cases hrc : rc < MAX_RETRIES - 1
      · have hrec := ih (rc + 1) (ce - Int.fdiv (ce - cs) 2) ce
        refine ⟨?_, ?_, ?_⟩
        · have := hrec.1
          simp only [fetchRetryLoop, horacle, if_pos hrc, List.length_cons]
          omega
        · intro _
          simp [fetchRetryLoop, horacle, if_pos hrc]
        · intro i p q hp hq
          simp only [fetchRetryLoop, horacle, if_pos hrc] at hp hq
          cases i with
          | zero =>
            simp only [List.getElem?_cons_zero, Option.some.injEq] at hp
            simp only [List.getElem?_cons_succ] at hq
            have hne : (fetchRetryLoop oracle fuel (rc + 1)
                (ce - Int.fdiv (ce - cs) 2) ce).1 ≠ [] := by
              intro hempty
              rw [hempty] at hq
              simp at hq
            have hfuel : 0 < fuel := by
              have h1 := hrec.1
              have h2 : 0 < (fetchRetryLoop oracle fuel (rc + 1)
                  (ce - Int.fdiv (ce - cs) 2) ce).1.length :=
                List.length_pos.mpr hne
              omega
            rw [hrec.2.1 hfuel] at hq
            simp only [Option.some.injEq] at hq
            subst hp
            subst hq
            exact ⟨rfl, rfl, by simpa using horacle⟩
          | succ j =>
            simp only [List.getElem?_cons_succ] at hp hq
            have hj := hrec.2.2 j p q hp hq
            refine ⟨hj.1, hj.2.1, ?_⟩
            have harith : rc + 1 + j = rc + (j + 1) := by omega
            rw [← harith]
            exact hj.2.2
      · refine ⟨by simp [fetchRetryLoop, horacle, if_neg hrc], ?_, ?_⟩
        · intro _; simp [fetchRetryLoop, horacle, if_neg hrc]
        · intro i p q hp hq
          simp only [fetchRetryLoop, horacle, if_neg hrc,
            List.getElem?_cons_succ, List.getElem?_nil] at hq
          exact Option.noConfusion hq

/-- C1: during price-history fetching, the attempted windows satisfy:
at most `MAX_RETRIES = 3` attempts are made in total; the first attempt
uses the caller's `(start_ts, end_ts)`; and whenever one attempt is
followed by another, the earlier attempt failed with an error whose
message contains `interval is too long`, the next attempt keeps
`end_ts` unchanged, and its `start_ts` is
`end_ts - (end_ts - start_ts) // 2` (floor division) of the failed
window — each such narrowing consuming one of the same retry slots. -/
theorem fetch_price_history_retry_spec (oracle : Nat → Int × Int → FetchOutcome)
    (start_ts end_ts : Int) :
    MAX_RETRIES = 3 ∧
    (fetchPriceHistoryWithRetry oracle start_ts end_ts).1.length ≤ MAX_RETRIES ∧
    (fetchPriceHistoryWithRetry oracle start_ts end_ts).1[0]? =
      some (start_ts, end_ts) ∧
    (∀ i p q, (fetchPriceHistoryWithRetry oracle start_ts end_ts).1[i]? = some p →
      (fetchPriceHistoryWithRetry oracle start_ts end_ts).1[i + 1]? = some q →
      q.2 = p.2 ∧ q.1 = p.2 - Int.fdiv (p.2 - p.1) 2 ∧
      oracle i p = FetchOutcome.errTooLong) := by
  have h := fetchRetryLoop_trace_spec oracle MAX_RETRIES 0 start_ts end_ts
  refine ⟨rfl, h.1, h.2.1 (by decide), ?_⟩
  intro i p q hp hq
  have hc := h.2.2 i p q hp hq
  simpa using hc

theorem fetch_price_history_retry_spec_witness :
    (fetchPriceHistoryWithRetry witnessOracleC1 0 1000).1 = [(0, 1000), (500, 1000)] ∧
    (fetchPriceHistoryWithRetry witnessOracleC1 0 1000).2 = FetchResult.histories ∧
    (500 : Int) = 1000 - Int.fdiv (1000 - 0) 2 ∧
    witnessOracleC1 0 (0, 1000) = FetchOutcome.errTooLong := by
  have h := fetch_price_history_retry_spec witnessOracleC1 0 1000
  have hc := h.2.2.2 0 (0, 1000) (500, 1000) (by decide) (by decide)
  exact ⟨by decide, by decide, hc.2.1, hc.2.2⟩

theorem findMarketBySlug_eq_none (pages : List (List ClobPayload)) (slug : String)
    (h : ∀ page ∈ pages, ∀ d ∈ page, d.market_slug ≠ slug) :
    findMarketBySlug pages slug = none := by
  induction pages with
  | nil => rfl
  | cons page rest ih =>
    have hfind : page.find? (fun d => d.market_slug == slug) = none := by
      rw [List.find?_eq_none]
      intro d hd
      simp [h page (by simp) d hd]
    simp only [findMarketBySlug, hfind]
    exact ih (fun pg hpg d hd => h pg (by simp [hpg]) d hd)

/-- C3: `get_market(slug)` queries the CLOB (trading-data) client
first and returns its result when found; only when the CLOB scan finds
nothing does it query the Gamma (metadata) client, returning whatever
that yields; it returns `None` exactly when both sources miss; and for
a slug absent from every CLOB page but answered by the Gamma direct
query with a payload carrying that slug, `get_market` succeeds via the
fallback and returns a `Market` with that slug. -/
theorem get_market_fallback_spec (api : PolymarketAPI) (slug : String) :
    (∀ m, findMarketBySlug api.clobPages slug = some m →
      api.get_market slug = some m) ∧
    (findMarketBySlug api.clobPages slug = none →
      api.get_market slug = api.gamma.get_market_by_slug slug) ∧
    (findMarketBySlug api.clobPages slug = none →
      api.gamma.get_market_by_slug slug = none → api.get_market slug = none) ∧
    ((∀ page ∈ api.clobPages, ∀ d ∈ page, d.market_slug ≠ slug) →
      ∀ g gs, api.gamma.slugQuery slug = g :: gs → g.slug = slug →
        ∃ m, api.get_market slug = some m ∧ m.slug = slug) := by
  refine ⟨?_, ?_, ?_, ?_⟩
  · intro m hm
    simp [PolymarketAPI.get_market, hm]
  · intro hn
    simp [PolymarketAPI.get_market, hn]
  · intro hn hg
    simp [PolymarketAPI.get_market, hn, hg]
  · intro habs g gs hquery hslug
    have hn := findMarketBySlug_eq_none api.clobPages slug habs
    refine ⟨Market.from_gamma_response g, ?_, hslug⟩
    simp [PolymarketAPI.get_market, hn, GammaClient.get_market_by_slug, hquery]

theorem get_market_fallback_spec_witness :
    ∃ m, witnessApiC3.get_market "meta-only" = some m ∧ m.slug = "meta-only" :=
  (get_market_fallback_spec witnessApiC3 "meta-only").2.2.2
    (by decide) { slug := "meta-only" } [] rfl rfl

theorem oAlt_none_right {α : Type} (a : Option α) : oAlt a none = a := by
  cases a <;> rfl

theorem oAlt_some {α : Type} (v : α) (b : Option α) :
    oAlt (some v) b = some v := rfl

theorem oAlt_assoc {α : Type} (a b c : Option α) :
    oAlt (oAlt a b) c = oAlt a (oAlt b c) := by
  cases a <;> rfl

theorem foldl_ite_acc (P : Nat × ℚ → Bool) (pts : List (Nat × ℚ))
    (acc : Option ℚ) :
    pts.foldl (fun a pt => if P pt then some pt.2 else a) acc =
      oAlt (pts.foldl (fun a pt => if P pt then some pt.2 else a) none) acc := by
  induction pts generalizing acc with
  | nil => simp [oAlt]
  | cons pt rest ih =>
    simp only [List.foldl_cons]
    by_cases h : P pt = true
    · rw [if_pos h, if_pos h, ih (some pt.2)]
      cases hx : rest.foldl (fun a pt => if P pt then some pt.2 else a) none with
      | none => simp [oAlt]
      | some w => simp [oAlt]
    · rw [if_neg h, if_neg h]
      exact ih acc

theorem exactVal_cons (pt : Nat × ℚ) (rest : List (Nat × ℚ)) (ts : Nat) :
    exactVal (pt :: rest) ts =
      oAlt (exactVal rest ts) (if pt.1 == ts then some pt.2 else none) := by
  show rest.foldl _ (if pt.1 == ts then some pt.2 else none) = _
  exact foldl_ite_acc (fun pt => pt.1 == ts) rest _

theorem ffVal_cons (pt : Nat × ℚ) (rest : List (Nat × ℚ)) (ts : Nat) :
    ffVal (pt :: rest) ts =
      oAlt (ffVal rest ts) (if pt.1 ≤ ts then some pt.2 else none) := by
  show rest.foldl _ (if pt.1 ≤ ts then some pt.2 else none) = _
  have h := foldl_ite_acc (fun pt => decide (pt.1 ≤ ts)) rest
    (if decide (pt.1 ≤ ts) = true then some pt.2 else none)
  simpa [decide_eq_true_eq] using h

theorem ffValLT_cons (pt : Nat × ℚ) (rest : List (Nat × ℚ)) (ts : Nat) :
    ffValLT (pt :: rest) ts =
      oAlt (ffValLT rest ts) (if pt.1 < ts then some pt.2 else none) := by
  show rest.foldl _ (if pt.1 < ts then some pt.2 else none) = _
  have h := foldl_ite_acc (fun pt => decide (pt.1 < ts)) rest
    (if decide (pt.1 < ts) = true then some pt.2 else none)
  simpa [decide_eq_true_eq] using h

theorem exactVal_append (xs ys : List (Nat × ℚ)) (ts : Nat) :
    exactVal (xs ++ ys) ts = oAlt (exactVal ys ts) (exactVal xs ts) := by
  show (xs ++ ys).foldl _ none = _
  rw [List.foldl_append]
  exact foldl_ite_acc (fun pt => pt.1 == ts) ys _

theorem exactVal_eq_none (pts : List (Nat × ℚ)) (ts : Nat)
    (h : ∀ pt ∈ pts, pt.1 ≠ ts) : exactVal pts ts = none := by
  induction pts with
  | nil => rfl
  | cons pt rest ih =>
    rw [exactVal_cons, ih (fun x hx => h x (by simp [hx])),
      if_neg (by simpa using h pt (by simp))]
    rfl

theorem ffValLT_eq_none (pts : List (Nat × ℚ)) (ts : Nat)
    (h : ∀ pt ∈ pts, ¬ pt.1 < ts) : ffValLT pts ts = none := by
  induction pts with
  | nil => rfl
  | cons pt rest ih =>
    rw [ffValLT_cons, ih (fun x hx => h x (by simp [hx])),
      if_neg (h pt (by simp))]
    rfl

theorem ffVal_eq_ffValLT (pts : List (Nat × ℚ)) (a b : Nat)
    (h : ∀ pt ∈ pts, pt.1 ≤ a ↔ pt.1 < b) : ffVal pts a = ffValLT pts b := by
  induction pts with
  | nil => rfl
  | cons pt rest ih =>
    rw [ffVal_cons, ffValLT_cons, ih (fun x hx => h x (by simp [hx]))]
    by_cases hle : pt.1 ≤ a
    · rw [if_pos hle, if_pos ((h pt (by simp)).mp hle)]
    · rw [if_neg hle, if_neg (fun hlt => hle ((h pt (by simp)).mpr hlt))]

theorem ffVal_split (pts : List (Nat × ℚ)) (ts : Nat)
    (hs : (pts.map Prod.fst).Pairwise (fun a b => a < b)) :
    ffVal pts ts = oAlt (exactVal pts ts) (ffValLT pts ts) := by
  induction pts with
  | nil => rfl
  | cons pt rest ih =>
    have hrest : (rest.map Prod.fst).Pairwise (fun a b => a < b) :=
      (List.pairwise_cons.mp (by simpa using hs)).2
    have hlt : ∀ x ∈ rest, pt.1 < x.1 := by
      intro x hx
      exact (List.pairwise_cons.mp (by simpa using hs)).1 x.1
        (List.mem_map.mpr ⟨x, hx, rfl⟩)
    rw [ffVal_cons, exactVal_cons, ffValLT_cons, ih hrest]
    by_cases heq : pt.1 = ts
    · have hLTnone : ffValLT rest ts = none := by
        apply ffValLT_eq_none
        intro x hx
        have := hlt x hx
        omega
      rw [hLTnone]
      have h1 : (pt.1 == ts) = true := by simpa using heq
      rw [if_pos (by omega : pt.1 ≤ ts), h1, if_pos rfl]
      have h2 : ¬ pt.1 < ts := by omega
      rw [if_neg h2, oAlt_none_right, oAlt_assoc]
      cases hE : exactVal rest ts <;> simp [oAlt]
    · have h1 : (pt.1 == ts) = false := by simpa using heq
      rw [h1]
      simp only [Bool.false_eq_true, if_false, oAlt_none_right]
      have hiff : pt.1 ≤ ts ↔ pt.1 < ts := by omega
      by_cases hlt2 : pt.1 < ts
      · rw [if_pos (hiff.mpr hlt2), if_pos hlt2, oAlt_assoc]
      · rw [if_neg (fun hle => hlt2 (hiff.mp hle)), if_neg hlt2,
          oAlt_none_right, oAlt_none_right]

theorem dictGet_insert_self {α β : Type} [BEq α] [LawfulBEq α]
    (k : α) (v : β) (d : List (α × β)) :
    dictGet k (dictInsert k v d) = some v := by
  induction d with
  | nil => simp [dictInsert, dictGet]
  | cons p rest ih =>
    by_cases h : p.1 == k
    · simp [dictInsert, dictGet, h]
    · simp only [dictInsert, dictGet, h, Bool.false_eq_true, if_false]
      exact ih

theorem dictGet_insert_ne {α β : Type} [BEq α] [LawfulBEq α]
    (k k2 : α) (v : β) (d : List (α × β)) (hne : k2 ≠ k) :
    dictGet k2 (dictInsert k v d) = dictGet k2 d := by
  have hb : (k == k2) = false := by
    simp only [beq_eq_false_iff_ne, ne_eq]
    exact fun hh => hne hh.symm
  induction d with
  | nil => simp [dictInsert, dictGet, hb]
  | cons p rest ih =>
    by_cases h : p.1 == k
    · have hp : p.1 = k := eq_of_beq h
      have hb2 : (p.1 == k2) = false := by rw [hp]; exact hb
      simp [dictInsert, dictGet, h, hb, hb2]
    · simp only [dictInsert, dictGet, h, Bool.false_eq_true, if_false]
      by_cases h2 : p.1 == k2
      · simp [dictGet, h2]
      · simp only [dictGet, h2, Bool.false_eq_true, if_false]
        exact ih

theorem dictGet_insert {α β : Type} [BEq α] [LawfulBEq α] [DecidableEq α]
    (k k2 : α) (v : β) (d : List (α × β)) :
    dictGet k2 (dictInsert k v d) =
      if k2 = k then some v else dictGet k2 d := by
  by_cases h : k2 = k
  · subst h
    rw [if_pos rfl, dictGet_insert_self]
  · rw [if_neg h, dictGet_insert_ne _ _ _ _ h]

theorem dictGet_append {α β : Type} [BEq α] (k : α) (xs ys : List (α × β)) :
    dictGet k (xs ++ ys) = oAlt (dictGet k xs) (dictGet k ys) := by
  induction xs with
  | nil => simp [dictGet, oAlt]
  | cons p rest ih =>
    by_cases h : p.1 == k
    · simp [dictGet, h, oAlt]
    · simp only [List.cons_append, dictGet, h, Bool.false_eq_true, if_false]
      exact ih

theorem keys_dictInsert {α β : Type} [BEq α] [LawfulBEq α]
    (k k2 : α) (v : β) (d : List (α × β)) :
    k2 ∈ (dictInsert k v d).map Prod.fst ↔ k2 = k ∨ k2 ∈ d.map Prod.fst := by
  induction d with
  | nil => simp [dictInsert]
  | cons p rest ih =>
    by_cases h : p.1 == k
    · have hp : p.1 = k := eq_of_beq h
      simp only [dictInsert]
      rw [if_pos h]
      simp only [List.map_cons, List.mem_cons, hp]
      tauto
    · simp only [dictInsert, h, Bool.false_eq_true, if_false, List.map_cons,
        List.mem_cons, ih]
      tauto

theorem nodup_keys_dictInsert {α β : Type} [BEq α] [LawfulBEq α]
    (k : α) (v : β) (d : List (α × β)) (h : (d.map Prod.fst).Nodup) :
    ((dictInsert k v d).map Prod.fst).Nodup := by
  induction d with
  | nil => simp [dictInsert]
  | cons p rest ih =>
    simp only [List.map_cons, List.nodup_cons] at h
    by_cases hb : p.1 == k
    · have hp : p.1 = k := eq_of_beq hb
      simp only [dictInsert, hb, if_true, List.map_cons, List.nodup_cons]
      exact ⟨by rw [← hp]; exact h.1, h.2⟩
    · simp only [dictInsert, hb, Bool.false_eq_true, if_false, List.map_cons,
        List.nodup_cons]
      refine ⟨?_, ih h.2⟩
      rw [keys_dictInsert]
      rintro (hk | hk)
      · exact absurd hk (by simpa using hb)
      · exact h.1 hk

theorem dictGet_isSome_iff {α β : Type} [BEq α] [LawfulBEq α]
    (k : α) (d : List (α × β)) :
    (dictGet k d).isSome = true ↔ k ∈ d.map Prod.fst := by
  induction d with
  | nil => simp [dictGet]
  | cons p rest ih =>
    by_cases h : p.1 == k
    · simp [dictGet, h, eq_of_beq h]
    · simp only [dictGet, h, Bool.false_eq_true, if_false, List.map_cons,
        List.mem_cons, ih]
      constructor
      · intro hm; exact Or.inr hm
      · rintro (hk | hk)
        · exact absurd hk.symm (by simpa using h)
        · exact hk

theorem dictGet_eq_none_iff {α β : Type} [BEq α] [LawfulBEq α]
    (k : α) (d : List (α × β)) :
    dictGet k d = none ↔ k ∉ d.map Prod.fst := by
  induction d with
  | nil => simp [dictGet]
  | cons p rest ih =>
    by_cases h : p.1 == k
    · simp [dictGet, h, eq_of_beq h]
    · simp only [dictGet, h, Bool.false_eq_true, if_false, List.map_cons,
        List.mem_cons, ih]
      constructor
      · intro hm
        rintro (hk | hk)
        · exact absurd hk.symm (by simpa using h)
        · exact hm hk
      · intro hm hk
        exact hm (Or.inr hk)

theorem oAlt_ite_opt {P : Prop} [Decidable P] (E y : Option ℚ) :
    oAlt (if P then E else none) y = if P then oAlt E y else y := by
  by_cases h : P <;> simp [h, oAlt]

theorem foldl_ite_congr (P Q : Nat × ℚ → Bool) (pts : List (Nat × ℚ))
    (acc : Option ℚ) (h : ∀ pt ∈ pts, P pt = Q pt) :
    pts.foldl (fun a pt => if P pt then some pt.2 else a) acc =
      pts.foldl (fun a pt => if Q pt then some pt.2 else a) acc := by
  induction pts generalizing acc with
  | nil => rfl
  | cons pt rest ih =>
    simp only [List.foldl_cons]
    rw [h pt (by simp)]
    exact ih _ (fun x hx => h x (by simp [hx]))

theorem foldl_ite_congr_prop (P Q : Nat × ℚ → Prop) [DecidablePred P]
    [DecidablePred Q] (pts : List (Nat × ℚ)) (acc : Option ℚ)
    (h : ∀ pt ∈ pts, P pt ↔ Q pt) :
    pts.foldl (fun a pt => if P pt then some pt.2 else a) acc =
      pts.foldl (fun a pt => if Q pt then some pt.2 else a) acc := by
  induction pts generalizing acc with
  | nil => rfl
  | cons pt rest ih =>
    simp only [List.foldl_cons]
    by_cases hp : P pt
    · rw [if_pos hp, if_pos ((h pt (by simp)).mp hp)]
      exact ih _ (fun x hx => h x (by simp [hx]))
    · rw [if_neg hp, if_neg (fun hq => hp ((h pt (by simp)).mpr hq))]
      exact ih _ (fun x hx => h x (by simp [hx]))

theorem ffValBelow_cons (pts : List (Nat × ℚ)) (t0 : Nat) (rest : List Nat)
    (hsorted : (t0 :: rest).Pairwise (fun a b => a < b)) :
    ffValBelow pts (t0 :: rest) = ffValLT pts t0 := by
  unfold ffValBelow ffValLT
  apply foldl_ite_congr_prop
  intro pt _
  constructor
  · intro hall
    have := List.all_eq_true.mp hall t0 (by simp)
    simpa using this
  · intro hlt
    apply List.all_eq_true.mpr
    intro t2 ht2
    rcases List.mem_cons.mp ht2 with h2 | h2
    · subst h2; simpa using hlt
    · have := (List.pairwise_cons.mp hsorted).1 t2 h2
      simp only [decide_eq_true_eq]
      omega

theorem colPoints_cons (x : String × List (Nat × ℚ))
    (rest : List (String × List (Nat × ℚ))) (c : String) :
    colPoints (x :: rest) c =
      (if x.1 == c then x.2 else []) ++ colPoints rest c := by
  by_cases h : x.1 == c <;> simp [colPoints, List.filter_cons, h]

theorem colPoints_nil_of (series : List (String × List (Nat × ℚ))) (c : String)
    (h : ∀ x ∈ series, x.1 = c → x.2 = []) : colPoints series c = [] := by
  induction series with
  | nil => rfl
  | cons x rest ih =>
    rw [colPoints_cons, ih (fun y hy => h y (by simp [hy]))]
    by_cases hx : x.1 == c
    · simp [hx, h x (by simp) (by simpa using hx)]
    · simp [hx]

theorem colPoints_sorted (series : List (String × List (Nat × ℚ))) (c : String)
    (hsorted : ∀ s ∈ series, (s.2.map Prod.fst).Pairwise (fun a b => a < b))
    (hcols : ((series.filter (fun s => !s.2.isEmpty)).map Prod.fst).Nodup) :
    ((colPoints series c).map Prod.fst).Pairwise (fun a b => a < b) := by
  induction series with
  | nil => simp [colPoints]
  | cons x rest ih =>
    have hsrest : ∀ s ∈ rest, (s.2.map Prod.fst).Pairwise (fun a b => a < b) :=
      fun s hs => hsorted s (by simp [hs])
    by_cases hne : x.2.isEmpty
    · have hx2 : x.2 = [] := by simpa [List.isEmpty_iff] using hne
      rw [colPoints_cons]
      have hitenil : (if x.1 == c then x.2 else []) = [] := by
        rw [hx2]; split <;> rfl
      rw [hitenil, List.nil_append]
      apply ih hsrest
      simpa [List.filter_cons, hne] using hcols
    · have hfcons :
          (x :: rest).filter (fun s => !s.2.isEmpty) =
            x :: rest.filter (fun s => !s.2.isEmpty) := by
        simp [List.filter_cons, hne]
      rw [hfcons] at hcols
      simp only [List.map_cons, List.nodup_cons] at hcols
      rw [colPoints_cons]
      by_cases hc : x.1 == c
      · have hrestnil : colPoints rest c = [] := by
          apply colPoints_nil_of
          intro y hy hyc
          by_contra hye
          have hmem : y.1 ∈ (rest.filter (fun s => !s.2.isEmpty)).map Prod.fst := by
            refine List.mem_map.mpr ⟨y, List.mem_filter.mpr ⟨hy, ?_⟩, rfl⟩
            simpa [List.isEmpty_iff] using hye
          rw [hyc, ← eq_of_beq hc] at hmem
          exact hcols.1 hmem
        rw [if_pos hc, hrestnil, List.append_nil]
        exact hsorted x (by simp)
      · rw [if_neg hc, List.nil_append]
        exact ih hsrest hcols.2

theorem innerGet_insertPoint (col : String) (pt : Nat × ℚ)
    (td : List (Nat × List (String × ℚ))) (ts : Nat) (c : String) :
    dictGet c ((dictGet ts (insertPoint col pt td)).getD []) =
      (if pt.1 = ts ∧ col = c then some pt.2
       else dictGet c ((dictGet ts td).getD [])) := by
  unfold insertPoint
  rw [dictGet_insert]
  by_cases hts : ts = pt.1
  · rw [if_pos hts]
    simp only [Option.getD_some]
    rw [dictGet_insert]
    by_cases hc : c = col
    · rw [if_pos hc, if_pos ⟨hts.symm, hc.symm⟩]
    · rw [if_neg hc, if_neg (fun hand => hc hand.2.symm), hts]
  · rw [if_neg hts, if_neg (fun hand => hts hand.1.symm)]

theorem innerGet_insertSeries (col : String) (pts : List (Nat × ℚ))
    (td : List (Nat × List (String × ℚ))) (ts : Nat) (c : String) :
    dictGet c ((dictGet ts (insertSeries col pts td)).getD []) =
      (if col = c then
        oAlt (exactVal pts ts) (dictGet c ((dictGet ts td).getD []))
       else dictGet c ((dictGet ts td).getD [])) := by
  induction pts generalizing td with
  | nil =>
    by_cases h : col = c <;> simp [insertSeries, h, oAlt, exactVal]
  | cons pt rest ih =>
    show dictGet c ((dictGet ts (insertSeries col rest (insertPoint col pt td))).getD []) = _
    rw [ih (insertPoint col pt td), innerGet_insertPoint, exactVal_cons]
    by_cases h : col = c
    · rw [if_pos h, if_pos h]
      by_cases hts2 : pt.1 = ts
      · rw [if_pos ⟨hts2, h⟩]
        have hbeq : (pt.1 == ts) = true := by simpa using hts2
        rw [hbeq, if_pos rfl, oAlt_assoc, oAlt_some]
      · rw [if_neg (fun hand => hts2 hand.1)]
        have hbeq : (pt.1 == ts) = false := by simpa using hts2
        simp only [hbeq, Bool.false_eq_true, if_false, oAlt_none_right]
    · rw [if_neg h, if_neg h, if_neg (fun hand => h hand.2)]

theorem allTs_cons (x : String × List (Nat × ℚ))
    (rest : List (String × List (Nat × ℚ))) :
    allTs (x :: rest) = x.2.map Prod.fst ++ allTs rest := by
  simp [allTs]

theorem innerGet_build (series : List (String × List (Nat × ℚ)))
    (td0 : List (Nat × List (String × ℚ))) (ts : Nat) (c : String) :
    dictGet c ((dictGet ts (buildTimestampData series td0)).getD []) =
      oAlt (exactVal (colPoints series c) ts)
        (dictGet c ((dictGet ts td0).getD [])) := by
  induction series generalizing td0 with
  | nil => simp [buildTimestampData, colPoints, exactVal, oAlt]
  | cons x rest ih =>
    show dictGet c ((dictGet ts (buildTimestampData rest (insertSeries x.1 x.2 td0))).getD []) = _
    rw [ih (insertSeries x.1 x.2 td0), innerGet_insertSeries, colPoints_cons,
      exactVal_append]
    have hiteval :
        exactVal (if x.1 == c then x.2 else []) ts =
          (if x.1 = c then exactVal x.2 ts else none) := by
      by_cases hx : x.1 == c
      · rw [if_pos hx, if_pos (eq_of_beq hx)]
      · rw [if_neg hx, if_neg (by simpa using hx)]
        rfl
    rw [hiteval, oAlt_assoc, oAlt_ite_opt]

theorem keys_insertSeries (col : String) (pts : List (Nat × ℚ))
    (td : List (Nat × List (String × ℚ))) (ts : Nat) :
    ts ∈ (insertSeries col pts td).map Prod.fst ↔
      ts ∈ pts.map Prod.fst ∨ ts ∈ td.map Prod.fst := by
  induction pts generalizing td with
  | nil => simp [insertSeries]
  | cons pt rest ih =>
    show ts ∈ (insertSeries col rest (insertPoint col pt td)).map Prod.fst ↔ _
    rw [ih]
    unfold insertPoint
    rw [keys_dictInsert]
    simp only [List.map_cons, List.mem_cons]
    tauto

theorem keys_build (series : List (String × List (Nat × ℚ)))
    (td0 : List (Nat × List (String × ℚ))) (ts : Nat) :
    ts ∈ (buildTimestampData series td0).map Prod.fst ↔
      ts ∈ allTs series ∨ ts ∈ td0.map Prod.fst := by
  induction series generalizing td0 with
  | nil => simp [buildTimestampData, allTs]
  | cons x rest ih =>
    show ts ∈ (buildTimestampData rest (insertSeries x.1 x.2 td0)).map Prod.fst ↔ _
    rw [ih, keys_insertSeries, allTs_cons]
    simp only [List.mem_append]
    tauto

theorem nodup_keys_build (series : List (String × List (Nat × ℚ)))
    (td0 : List (Nat × List (String × ℚ))) (h : (td0.map Prod.fst).Nodup) :
    ((buildTimestampData series td0).map Prod.fst).Nodup := by
  induction series generalizing td0 with
  | nil => exact h
  | cons x rest ih =>
    apply ih
    clear ih
    induction x.2 generalizing td0 with
    | nil => exact h
    | cons pt prest ihp =>
      show ((insertSeries x.1 prest (insertPoint x.1 pt td0)).map Prod.fst).Nodup
      apply ihp
      exact nodup_keys_dictInsert _ _ _ h

theorem rowsNodup_build (series : List (String × List (Nat × ℚ)))
    (td0 : List (Nat × List (String × ℚ)))
    (h : ∀ ts row, dictGet ts td0 = some row → (row.map Prod.fst).Nodup) :
    ∀ ts row, dictGet ts (buildTimestampData series td0) = some row →
      (row.map Prod.fst).Nodup := by
  induction series generalizing td0 with
  | nil => exact h
  | cons x rest ih =>
    apply ih
    clear ih
    induction x.2 generalizing td0 with
    | nil => exact h
    | cons pt prest ihp =>
      show ∀ ts row, dictGet ts (insertSeries x.1 prest (insertPoint x.1 pt td0)) = some row → _
      apply ihp
      intro ts row hrow
      unfold insertPoint at hrow
      rw [dictGet_insert] at hrow
      by_cases hts : ts = pt.1
      · rw [if_pos hts] at hrow
        cases hrow
        apply nodup_keys_dictInsert
        cases hold : dictGet pt.1 td0 with
        | none => simp [hold]
        | some oldrow => simpa [hold] using h pt.1 oldrow hold
      · rw [if_neg hts] at hrow
        exact h ts row hrow

theorem dictGet_fillRow (prev current : List (String × ℚ)) (c : String) :
    dictGet c (fillRow prev current) =
      oAlt (dictGet c current) (dictGet c prev) := by
  induction prev generalizing current with
  | nil => simp [fillRow, dictGet, oAlt_none_right]
  | cons cv rest ih =>
    cases hcv : dictGet cv.1 current with
    | some v =>
      simp only [fillRow, hcv]
      rw [ih]
      by_cases hc : cv.1 == c
      · have hceq : cv.1 = c := eq_of_beq hc
        have hcur : dictGet c current = some v := by rw [← hceq]; exact hcv
        rw [hcur]
        simp [dictGet, hc, oAlt]
      · simp [dictGet, hc]
    | none =>
      simp only [fillRow, hcv]
      rw [ih, dictGet_append, oAlt_assoc]
      congr 1
      by_cases hc : cv.1 == c <;> simp [dictGet, hc, oAlt]

theorem dictGet_updateAll (prev current : List (String × ℚ)) (c : String)
    (hnd : (current.map Prod.fst).Nodup) :
    dictGet c (dictUpdateAll prev current) =
      oAlt (dictGet c current) (dictGet c prev) := by
  induction current generalizing prev with
  | nil => simp [dictUpdateAll, dictGet, oAlt]
  | cons cv rest ih =>
    simp only [List.map_cons, List.nodup_cons] at hnd
    show dictGet c (dictUpdateAll (dictInsert cv.1 cv.2 prev) rest) = _
    rw [ih _ hnd.2, dictGet_insert]
    by_cases hc : cv.1 == c
    · have hceq : cv.1 = c := eq_of_beq hc
      have hrest : dictGet c rest = none := by
        rw [dictGet_eq_none_iff, ← hceq]
        exact hnd.1
      rw [hrest]
      simp [dictGet, hc, hceq, oAlt]
    · have hne2 : ¬(c = cv.1) := fun hh => (by simpa using hc : cv.1 ≠ c) hh.symm
      rw [if_neg hne2]
      simp [dictGet, hc]

theorem nodup_keys_fillRow (prev current : List (String × ℚ))
    (h : (current.map Prod.fst).Nodup) :
    ((fillRow prev current).map Prod.fst).Nodup := by
  induction prev generalizing current with
  | nil => exact h
  | cons cv rest ih =>
    cases hcv : dictGet cv.1 current with
    | some v =>
      simp only [fillRow, hcv]
      exact ih _ h
    | none =>
      simp only [fillRow, hcv]
      apply ih
      have hnm : cv.1 ∉ current.map Prod.fst := by
        rw [← dictGet_eq_none_iff (β := ℚ)]
        exact hcv
      simp [List.nodup_append, h, hnm]

theorem nodup_keys_updateAll (prev current : List (String × ℚ))
    (h : (prev.map Prod.fst).Nodup) :
    ((dictUpdateAll prev current).map Prod.fst).Nodup := by
  induction current generalizing prev with
  | nil => exact h
  | cons cv rest ih =>
    show ((dictUpdateAll (dictInsert cv.1 cv.2 prev) rest).map Prod.fst).Nodup
    exact ih _ (nodup_keys_dictInsert _ _ _ h)

theorem foldl_ite_none (P : Nat × ℚ → Bool) (pts : List (Nat × ℚ))
    (h : ∀ pt ∈ pts, P pt = false) :
    pts.foldl (fun a pt => if P pt then some pt.2 else a) none = none := by
  induction pts with
  | nil => rfl
  | cons pt rest ih =>
    simp only [List.foldl_cons, h pt (by simp), Bool.false_eq_true, if_false]
    exact ih (fun x hx => h x (by simp [hx]))

theorem ffValBelow_eq_none (pts : List (Nat × ℚ)) (tss : List Nat)
    (h : ∀ pt ∈ pts, pt.1 ∈ tss) : ffValBelow pts tss = none := by
  unfold ffValBelow
  apply foldl_ite_none
  intro pt hpt
  simp only [List.all_eq_false]
  exact ⟨pt.1, h pt hpt, by simp⟩

theorem ffVal_eq_ffValBelow (pts : List (Nat × ℚ)) (t0 : Nat) (rest : List Nat)
    (h : ∀ pt ∈ pts, pt.1 ≤ t0 ↔ ∀ t2 ∈ rest, pt.1 < t2) :
    ffVal pts t0 = ffValBelow pts rest := by
  unfold ffVal ffValBelow
  apply foldl_ite_congr_prop
  intro pt hpt
  rw [h pt hpt]
  simp [List.all_eq_true]

theorem ffVal_none_of_split (pts : List (Nat × ℚ)) (ts : Nat)
    (hs : (pts.map Prod.fst).Pairwise (fun a b => a < b))
    (h : ffVal pts ts = none) : ffValLT pts ts = none := by
  have hsplit := ffVal_split pts ts hs
  rw [h] at hsplit
  cases hE : exactVal pts ts with
  | none => rw [hE] at hsplit; exact hsplit.symm
  | some v => rw [hE] at hsplit; exact absurd hsplit.symm (by simp [oAlt])

theorem iterateRowsAux_spec (series : List (String × List (Nat × ℚ)))
    (td : List (Nat × List (String × ℚ)))
    (htd : ∀ ts c, dictGet c ((dictGet ts td).getD []) =
      exactVal (colPoints series c) ts)
    (hrownd : ∀ ts row, dictGet ts td = some row → (row.map Prod.fst).Nodup)
    (hcolsorted : ∀ c,
      ((colPoints series c).map Prod.fst).Pairwise (fun a b => a < b)) :
    ∀ (tss : List Nat) (prev : List (String × ℚ)),
      tss.Pairwise (fun a b => a < b) →
      (∀ c pt, pt ∈ colPoints series c →
        pt.1 ∈ tss ∨ ∀ t2 ∈ tss, pt.1 < t2) →
      (∀ c, dictGet c prev = ffValBelow (colPoints series c) tss) →
      (prev.map Prod.fst).Nodup →
      (iterateRowsAux td tss prev).map Prod.fst = tss ∧
      (∀ r ∈ iterateRowsAux td tss prev, ∀ c,
        dictGet c r.2 = ffVal (colPoints series c) r.1) := by
  intro tss
  induction tss with
  | nil =>
    intro prev _ _ _ _
    exact ⟨rfl, by simp [iterateRowsAux]⟩
  | cons t0 rest ih =>
    intro prev hps hgap hprev hpnd
    have hinnd : (((dictGet t0 td).getD []).map Prod.fst).Nodup := by
      cases hrow : dictGet t0 td with
      | none => simp
      | some row => simpa using hrownd t0 row hrow
    have hcurnd :
        ((fillRow prev ((dictGet t0 td).getD [])).map Prod.fst).Nodup :=
      nodup_keys_fillRow _ _ hinnd
    have hcur : ∀ c, dictGet c (fillRow prev ((dictGet t0 td).getD [])) =
        ffVal (colPoints series c) t0 := by
      intro c
      rw [dictGet_fillRow, htd t0 c, hprev c, ffValBelow_cons _ _ _ hps,
        ← ffVal_split _ _ (hcolsorted c)]
    have hnextprev : ∀ c,
        dictGet c (dictUpdateAll prev (fillRow prev ((dictGet t0 td).getD []))) =
          ffValBelow (colPoints series c) rest := by
      intro c
      rw [dictGet_updateAll _ _ _ hcurnd, hcur c, hprev c,
        ffValBelow_cons _ _ _ hps]
      have hgoal : oAlt (ffVal (colPoints series c) t0)
          (ffValLT (colPoints series c) t0) = ffVal (colPoints series c) t0 := by
        cases hv : ffVal (colPoints series c) t0 with
        | some v => rfl
        | none => rw [ffVal_none_of_split _ _ (hcolsorted c) hv]; rfl
      rw [hgoal]
      apply ffVal_eq_ffValBelow
      intro pt hpt
      constructor
      · intro hle t2 ht2
        have := (List.pairwise_cons.mp hps).1 t2 ht2
        omega
      · intro hall
        by_contra hgt
        rcases hgap c pt hpt with hin | hlt
        · rcases List.mem_cons.mp hin with h1 | h1
          · omega
          · have := hall pt.1 h1
            omega
        · have := hlt t0 (by simp)
          omega
    have hgap2 : ∀ c pt, pt ∈ colPoints series c →
        pt.1 ∈ rest ∨ ∀ t2 ∈ rest, pt.1 < t2 := by
      intro c pt hpt
      rcases hgap c pt hpt with hin | hlt
      · rcases List.mem_cons.mp hin with h1 | h1
        · right
          intro t2 ht2
          have := (List.pairwise_cons.mp hps).1 t2 ht2
          omega
        · left; exact h1
      · right
        intro t2 ht2
        exact hlt t2 (by simp [ht2])
    have hrec := ih (dictUpdateAll prev (fillRow prev ((dictGet t0 td).getD [])))
      (List.pairwise_cons.mp hps).2 hgap2 hnextprev
      (nodup_keys_updateAll _ _ hpnd)
    refine ⟨?_, ?_⟩
    · simp only [iterateRowsAux, List.map_cons]
      rw [hrec.1]
    · intro r hr c
      simp only [iterateRowsAux, List.mem_cons] at hr
      rcases hr with hr | hr
      · subst hr
        exact hcur c
      · exact hrec.2 r hr c

theorem map_fst_pairing {α : Type} (g : Nat → α) (idx : List Nat) :
    List.map Prod.fst (idx.map (fun t => (t, g t))) = idx := by
  induction idx with
  | nil => rfl
  | cons t rest ih => simp [ih]

theorem frameRowLookup_mapRows (cols : List String) (idx : List Nat)
    (g : Nat → List (Option ℚ)) (ts : Nat) :
    frameRowLookup { cols := cols, rows := idx.map (fun t => (t, g t)) } ts =
      if ts ∈ idx then some (g ts) else none := by
  induction idx with
  | nil => simp [frameRowLookup]
  | cons t idxr ih =>
    by_cases h : t = ts
    · subst h
      simp [frameRowLookup, List.find?]
    · have hb : (t == ts) = false := by simpa using h
      simp only [frameRowLookup, List.map_cons, List.find?, hb] at ih ⊢
      rw [ih]
      have hiff : ts ∈ t :: idxr ↔ ts ∈ idxr := by
        constructor
        · intro hm
          rcases List.mem_cons.mp hm with h1 | h1
          · exact absurd h1.symm h
          · exact h1
        · intro hm
          exact List.mem_cons.mpr (Or.inr hm)
      exact (if_congr hiff rfl rfl).symm

theorem frameRowLookup_eq_none_iff (f : Frame) (ts : Nat) :
    frameRowLookup f ts = none ↔ ts ∉ f.rows.map Prod.fst := by
  unfold frameRowLookup
  cases hf : f.rows.find? (fun r => r.1 == ts) with
  | none =>
    constructor
    · intro _ hm
      rcases List.mem_map.mp hm with ⟨r, hr, hfst⟩
      have h2 := List.find?_eq_none.mp hf r hr
      simp [hfst] at h2
    · intro _
      rfl
  | some pr =>
    constructor
    · intro h
      exact absurd h (by simp)
    · intro hm
      exact absurd (List.mem_map.mpr ⟨pr, List.mem_of_find?_eq_some hf,
        by simpa using List.find?_some hf⟩) hm

theorem length_lookup_getD (f : Frame) (ts : Nat)
    (hwf : ∀ r ∈ f.rows, r.2.length = f.cols.length) :
    ((frameRowLookup f ts).getD (noneRow f)).length = f.cols.length := by
  unfold frameRowLookup
  cases hf : f.rows.find? (fun r => r.1 == ts) with
  | none => simp [noneRow]
  | some pr =>
    show pr.2.length = f.cols.length
    exact hwf pr (List.mem_of_find?_eq_some hf)

theorem noneRow_getElem_join (f : Frame) (j : Nat) :
    ((noneRow f)[j]?).join = none := by
  unfold noneRow
  rw [List.getElem?_map]
  cases h : f.cols[j]? <;> rfl

theorem joinFrames_index (a b : Frame) :
    (joinFrames a b).rows.map Prod.fst =
      sortNat (a.rows.map Prod.fst ++ b.rows.map Prod.fst).dedup := by
  simp only [joinFrames]
  exact map_fst_pairing _ _

theorem joinFrames_cols (a b : Frame) :
    (joinFrames a b).cols = a.cols ++ b.cols := rfl

theorem natLe_trans (a b c : Nat) (h1 : natLe a b = true) (h2 : natLe b c = true) :
    natLe a c = true := by
  simp only [natLe, Nat.ble_eq] at h1 h2 ⊢
  omega

theorem natLe_total (a b : Nat) : (natLe a b || natLe b a) = true := by
  simp only [natLe, Nat.ble_eq, Bool.or_eq_true]
  omega

theorem pairwise_lt_of_le_nodup (l : List Nat)
    (hle : l.Pairwise (fun a b => a ≤ b)) (hnd : l.Nodup) :
    l.Pairwise (fun a b => a < b) := by
  induction l with
  | nil => exact List.Pairwise.nil
  | cons a rest ih =>
    rw [List.pairwise_cons] at hle ⊢
    rw [List.nodup_cons] at hnd
    refine ⟨?_, ih hle.2 hnd.2⟩
    intro b hb
    have h1 := hle.1 b hb
    have h2 : a ≠ b := fun hh => hnd.1 (hh ▸ hb)
    omega

theorem insertSorted_perm (a : Nat) (l : List Nat) :
    (insertSorted a l).Perm (a :: l) := by
  induction l with
  | nil => exact List.Perm.refl _
  | cons b rest ih =>
    unfold insertSorted
    by_cases h : natLe a b
    · rw [if_pos h]
    · rw [if_neg h]
      exact (List.Perm.cons b ih).trans (List.Perm.swap a b rest)

theorem sortNat_perm (l : List Nat) : (sortNat l).Perm l := by
  induction l with
  | nil => exact List.Perm.refl _
  | cons a rest ih =>
    show (insertSorted a (sortNat rest)).Perm (a :: rest)
    exact (insertSorted_perm a (sortNat rest)).trans (List.Perm.cons a ih)

theorem insertSorted_sorted (a : Nat) (l : List Nat)
    (h : l.Pairwise (fun x y => x ≤ y)) :
    (insertSorted a l).Pairwise (fun x y => x ≤ y) := by
  induction l with
  | nil => simp [insertSorted]
  | cons b rest ih =>
    rw [List.pairwise_cons] at h
    unfold insertSorted
    by_cases hab : natLe a b
    · rw [if_pos hab]
      have hle : a ≤ b := by simpa [natLe, Nat.ble_eq] using hab
      apply List.pairwise_cons.mpr
      refine ⟨?_, List.pairwise_cons.mpr h⟩
      intro y hy
      rcases List.mem_cons.mp hy with h1 | h1
      · omega
      · have := h.1 y h1
        omega
    · rw [if_neg hab]
      have hgt : b ≤ a := by
        simp only [natLe, Nat.ble_eq] at hab
        omega
      apply List.pairwise_cons.mpr
      refine ⟨?_, ih h.2⟩
      intro y hy
      have hmem := (insertSorted_perm a rest).mem_iff.mp hy
      rcases List.mem_cons.mp hmem with h1 | h1
      · omega
      · exact h.1 y h1

theorem sortNat_sorted (l : List Nat) :
    (sortNat l).Pairwise (fun x y => x ≤ y) := by
  induction l with
  | nil => exact List.Pairwise.nil
  | cons a rest ih => exact insertSorted_sorted a (sortNat rest) ih

theorem sortNat_dedup_spec (l : List Nat) :
    (sortNat l.dedup).Pairwise (fun a b => a < b) ∧
    (sortNat l.dedup).Nodup ∧
    (∀ t, t ∈ sortNat l.dedup ↔ t ∈ l) := by
  have hperm : (sortNat l.dedup).Perm l.dedup := sortNat_perm l.dedup
  have hnd : (sortNat l.dedup).Nodup := hperm.nodup_iff.mpr (List.nodup_dedup l)
  refine ⟨pairwise_lt_of_le_nodup _ (sortNat_sorted l.dedup) hnd, hnd, ?_⟩
  intro t
  rw [hperm.mem_iff, List.mem_dedup]

theorem frameVal_join_left (a b : Frame) (ts : Nat) (j : Nat)
    (hj : j < a.cols.length)
    (hwa : ∀ r ∈ a.rows, r.2.length = a.cols.length) :
    frameVal (joinFrames a b) ts j = frameVal a ts j := by
  unfold frameVal
  rw [show frameRowLookup (joinFrames a b) ts =
      (if ts ∈ sortNat (a.rows.map Prod.fst ++ b.rows.map Prod.fst).dedup
       then some (((frameRowLookup a ts).getD (noneRow a)) ++
         ((frameRowLookup b ts).getD (noneRow b)))
       else none) from frameRowLookup_mapRows _ _ _ _]
  by_cases hmem : ts ∈ sortNat (a.rows.map Prod.fst ++ b.rows.map Prod.fst).dedup
  · rw [if_pos hmem]
    simp only [Option.getD_some]
    rw [List.getElem?_append,
      if_pos (by rw [length_lookup_getD a ts hwa]; exact hj)]
  · rw [if_neg hmem]
    simp only [Option.getD_none]
    rw [noneRow_getElem_join]
    have hnota : ts ∉ a.rows.map Prod.fst := by
      intro hin
      exact hmem (((sortNat_dedup_spec _).2.2 ts).mpr (by simp [hin]))
    rw [(frameRowLookup_eq_none_iff a ts).mpr hnota]
    simp only [Option.getD_none]
    rw [noneRow_getElem_join]

theorem frameVal_join_right (a b : Frame) (ts : Nat) (j : Nat)
    (hwa : ∀ r ∈ a.rows, r.2.length = a.cols.length) :
    frameVal (joinFrames a b) ts (a.cols.length + j) = frameVal b ts j := by
  unfold frameVal
  rw [show frameRowLookup (joinFrames a b) ts =
      (if ts ∈ sortNat (a.rows.map Prod.fst ++ b.rows.map Prod.fst).dedup
       then some (((frameRowLookup a ts).getD (noneRow a)) ++
         ((frameRowLookup b ts).getD (noneRow b)))
       else none) from frameRowLookup_mapRows _ _ _ _]
  by_cases hmem : ts ∈ sortNat (a.rows.map Prod.fst ++ b.rows.map Prod.fst).dedup
  · rw [if_pos hmem]
    simp only [Option.getD_some]
    rw [List.getElem?_append,
      if_neg (by rw [length_lookup_getD a ts hwa]; omega)]
    rw [show a.cols.length + j - ((frameRowLookup a ts).getD (noneRow a)).length = j by
      rw [length_lookup_getD a ts hwa]; omega]
  · rw [if_neg hmem]
    simp only [Option.getD_none]
    rw [noneRow_getElem_join]
    have hnotb : ts ∉ b.rows.map Prod.fst := by
      intro hin
      exact hmem (((sortNat_dedup_spec _).2.2 ts).mpr (by simp [hin]))
    rw [(frameRowLookup_eq_none_iff b ts).mpr hnotb]
    simp only [Option.getD_none]
    rw [noneRow_getElem_join]

theorem joinFrames_wf (a b : Frame)
    (hwa : ∀ r ∈ a.rows, r.2.length = a.cols.length)
    (hwb : ∀ r ∈ b.rows, r.2.length = b.cols.length) :
    ∀ r ∈ (joinFrames a b).rows, r.2.length = (joinFrames a b).cols.length := by
  intro r hr
  simp only [joinFrames, List.mem_map] at hr
  rcases hr with ⟨t, _, hteq⟩
  subst hteq
  simp only [joinFrames, List.length_append]
  rw [length_lookup_getD a t hwa, length_lookup_getD b t hwb]


theorem colIndex_eq_none_iff (c : String) (l : List String) :
    colIndex c l = none ↔ c ∉ l := by
  induction l with
  | nil => simp [colIndex]
  | cons a rest ih =>
    by_cases h : a == c
    · simp [colIndex, h, eq_of_beq h]
    · have hane : a ≠ c := by simpa using h
      rw [show colIndex c (a :: rest) = (colIndex c rest).map (fun x => x + 1) from by
        simp [colIndex, h]]
      constructor
      · intro hnone hmem
        rcases List.mem_cons.mp hmem with hk | hk
        · exact hane hk.symm
        · have hrest : colIndex c rest = none := by
            cases hcx : colIndex c rest with
            | none => rfl
            | some jr => rw [hcx] at hnone; simp at hnone
          exact (ih.mp hrest) hk
      · intro hmem
        have hrest : colIndex c rest = none :=
          ih.mpr (fun hk => hmem (List.mem_cons.mpr (Or.inr hk)))
        rw [hrest]
        rfl

theorem getElem?_of_colIndex (c : String) (l : List String) :
    ∀ j, colIndex c l = some j → l[j]? = some c := by
  induction l with
  | nil => intro j h; simp [colIndex] at h
  | cons a rest ih =>
    intro j h
    by_cases hb : a == c
    · rw [show colIndex c (a :: rest) = some 0 from by simp [colIndex, hb]] at h
      obtain rfl : j = 0 := by simpa using h.symm
      simpa using eq_of_beq hb
    · rw [show colIndex c (a :: rest) = (colIndex c rest).map (fun x => x + 1) from by
        simp [colIndex, hb]] at h
      cases hcx : colIndex c rest with
      | none => rw [hcx] at h; simp at h
      | some jr =>
        rw [hcx] at h
        obtain rfl : j = jr + 1 := by simpa using h.symm
        simpa using ih jr hcx

theorem seriesFrame_wf (col : String) (pts : List (Nat × ℚ)) :
    ∀ r ∈ (seriesFrame col pts).rows, r.2.length = (seriesFrame col pts).cols.length := by
  intro r hr
  simp only [seriesFrame, List.mem_map] at hr
  rcases hr with ⟨pt, _, hpt⟩
  subst hpt
  rfl

theorem seriesFrame_index (col : String) (pts : List (Nat × ℚ)) :
    (seriesFrame col pts).rows.map Prod.fst = pts.map Prod.fst := by
  simp [seriesFrame]

theorem frameVal_out_of_range (f : Frame) (ts j : Nat)
    (hwf : ∀ r ∈ f.rows, r.2.length = f.cols.length)
    (hj : ¬ j < f.cols.length) : frameVal f ts j = none := by
  unfold frameVal
  rw [List.getElem?_eq_none (by rw [length_lookup_getD f ts hwf]; omega)]
  rfl

theorem frameVal_seriesFrame (col : String) (pts : List (Nat × ℚ)) (ts : Nat)
    (hs : (pts.map Prod.fst).Pairwise (fun a b => a < b)) :
    frameVal (seriesFrame col pts) ts 0 = exactVal pts ts := by
  induction pts with
  | nil => rfl
  | cons pt rest ih =>
    have hrest : (rest.map Prod.fst).Pairwise (fun a b => a < b) :=
      (List.pairwise_cons.mp (by simpa using hs)).2
    have hlt : ∀ x ∈ rest, pt.1 < x.1 := fun x hx =>
      (List.pairwise_cons.mp (by simpa using hs)).1 x.1 (List.mem_map.mpr ⟨x, hx, rfl⟩)
    by_cases h : pt.1 = ts
    · have hfind : frameRowLookup (seriesFrame col (pt :: rest)) ts =
          some [some pt.2] := by
        unfold frameRowLookup seriesFrame
        simp only [List.map_cons]
        rw [List.find?_cons_of_pos _ (by simpa using h)]
        rfl
      unfold frameVal
      rw [hfind, exactVal_cons,
        exactVal_eq_none rest ts (fun x hx => by have := hlt x hx; omega),
        if_pos (by simpa using h)]
      rfl
    · have hfind : frameRowLookup (seriesFrame col (pt :: rest)) ts =
          frameRowLookup (seriesFrame col rest) ts := by
        unfold frameRowLookup seriesFrame
        simp only [List.map_cons]
        rw [List.find?_cons_of_neg _ (by simpa using h)]
      unfold frameVal
      rw [hfind, exactVal_cons, if_neg (by simpa using h), oAlt_none_right]
      have hnr : noneRow (seriesFrame col (pt :: rest)) =
          noneRow (seriesFrame col rest) := rfl
      rw [hnr]
      exact ih hrest

theorem flatMap_cols_seriesFrames (l : List (String × List (Nat × ℚ))) :
    (l.map (fun s => seriesFrame s.1 s.2)).flatMap Frame.cols = l.map Prod.fst := by
  induction l with
  | nil => rfl
  | cons s rest ih =>
    simp only [List.map_cons, List.flatMap_cons, ih]
    rfl

theorem foldl_join_cols (fs : List Frame) (A : Frame) :
    (fs.foldl joinFrames A).cols = A.cols ++ fs.flatMap Frame.cols := by
  induction fs generalizing A with
  | nil => simp
  | cons b rest ih =>
    show (rest.foldl joinFrames (joinFrames A b)).cols = _
    rw [ih (joinFrames A b), joinFrames_cols]
    simp

theorem foldl_join_wf (fs : List Frame) (A : Frame)
    (hA : ∀ r ∈ A.rows, r.2.length = A.cols.length)
    (hfs : ∀ f ∈ fs, ∀ r ∈ f.rows, r.2.length = f.cols.length) :
    ∀ r ∈ (fs.foldl joinFrames A).rows,
      r.2.length = (fs.foldl joinFrames A).cols.length := by
  induction fs generalizing A with
  | nil => exact hA
  | cons b rest ih =>
    exact ih (joinFrames A b)
      (joinFrames_wf A b hA (hfs b (by simp)))
      (fun f hf => hfs f (by simp [hf]))

theorem foldl_join_index_mem (fs : List Frame) (A : Frame) (t : Nat) :
    t ∈ (fs.foldl joinFrames A).rows.map Prod.fst ↔
      t ∈ A.rows.map Prod.fst ∨ ∃ f ∈ fs, t ∈ f.rows.map Prod.fst := by
  induction fs generalizing A with
  | nil => simp
  | cons b rest ih =>
    show t ∈ (rest.foldl joinFrames (joinFrames A b)).rows.map Prod.fst ↔ _
    rw [ih (joinFrames A b)]
    have hjoin : t ∈ (joinFrames A b).rows.map Prod.fst ↔
        t ∈ A.rows.map Prod.fst ∨ t ∈ b.rows.map Prod.fst := by
      rw [joinFrames_index,
        (sortNat_dedup_spec (A.rows.map Prod.fst ++ b.rows.map Prod.fst)).2.2 t]
      simp
    rw [hjoin]
    constructor
    · rintro ((h | h) | ⟨f, hf, hm⟩)
      · exact Or.inl h
      · exact Or.inr ⟨b, by simp, h⟩
      · exact Or.inr ⟨f, by simp [hf], hm⟩
    · rintro (h | ⟨f, hf, hm⟩)
      · exact Or.inl (Or.inl h)
      · rcases List.mem_cons.mp hf with h1 | h1
        · subst h1
          exact Or.inl (Or.inr hm)
        · exact Or.inr ⟨f, h1, hm⟩

theorem foldl_join_index_sorted (fs : List Frame) (A : Frame)
    (hA : (A.rows.map Prod.fst).Pairwise (fun a b => a < b)) :
    ((fs.foldl joinFrames A).rows.map Prod.fst).Pairwise (fun a b => a < b) := by
  induction fs generalizing A with
  | nil => exact hA
  | cons b rest ih =>
    apply ih
    rw [joinFrames_index]
    exact (sortNat_dedup_spec _).1

theorem frameVal_foldl_join (fs : List Frame) (A : Frame) (ts : Nat)
    (hA : ∀ r ∈ A.rows, r.2.length = A.cols.length)
    (hfs : ∀ f ∈ fs, ∀ r ∈ f.rows, r.2.length = f.cols.length) :
    ∀ j, frameVal (fs.foldl joinFrames A) ts j =
      if j < A.cols.length then frameVal A ts j
      else frameValSeq fs ts (j - A.cols.length) := by
  induction fs generalizing A with
  | nil =>
    intro j
    rw [List.foldl_nil]
    by_cases hj : j < A.cols.length
    · rw [if_pos hj]
    · rw [if_neg hj, frameVal_out_of_range A ts j hA hj]
      rfl
  | cons b rest ih =>
    intro j
    show frameVal (rest.foldl joinFrames (joinFrames A b)) ts j = _
    rw [ih (joinFrames A b)
      (joinFrames_wf A b hA (hfs b (by simp)))
      (fun f hf => hfs f (by simp [hf])) j]
    have hlen : (joinFrames A b).cols.length = A.cols.length + b.cols.length := by
      rw [joinFrames_cols]
      simp
    rw [hlen]
    by_cases h1 : j < A.cols.length
    · rw [if_pos (show j < A.cols.length + b.cols.length by omega), if_pos h1,
        frameVal_join_left A b ts j h1 hA]
    · rw [if_neg h1]
      have hseq : frameValSeq (b :: rest) ts (j - A.cols.length) =
          if j - A.cols.length < b.cols.length then frameVal b ts (j - A.cols.length)
          else frameValSeq rest ts (j - A.cols.length - b.cols.length) := rfl
      rw [hseq]
      by_cases h2 : j < A.cols.length + b.cols.length
      · rw [if_pos h2, if_pos (show j - A.cols.length < b.cols.length by omega)]
        have hjr := frameVal_join_right A b ts (j - A.cols.length) hA
        rw [show A.cols.length + (j - A.cols.length) = j from by omega] at hjr
        exact hjr
      · rw [if_neg h2, if_neg (show ¬ j - A.cols.length < b.cols.length by omega)]
        congr 1
        omega

theorem frameValSeq_seriesFrames (l : List (String × List (Nat × ℚ))) (ts : Nat) :
    ∀ j, frameValSeq (l.map (fun s => seriesFrame s.1 s.2)) ts j =
      match l[j]? with
      | some s => frameVal (seriesFrame s.1 s.2) ts 0
      | none => none := by
  induction l with
  | nil =>
    intro j
    simp [frameValSeq]
  | cons s rest ih =>
    intro j
    cases j with
    | zero =>
      show (if 0 < (seriesFrame s.1 s.2).cols.length then
          frameVal (seriesFrame s.1 s.2) ts 0
        else frameValSeq (rest.map (fun x => seriesFrame x.1 x.2)) ts
          (0 - (seriesFrame s.1 s.2).cols.length)) = _
      rw [if_pos (by simp [seriesFrame])]
      simp
    | succ jj =>
      show (if jj + 1 < (seriesFrame s.1 s.2).cols.length then
          frameVal (seriesFrame s.1 s.2) ts (jj + 1)
        else frameValSeq (rest.map (fun x => seriesFrame x.1 x.2)) ts
          (jj + 1 - (seriesFrame s.1 s.2).cols.length)) = _
      rw [if_neg (by simp [seriesFrame])]
      rw [show jj + 1 - (seriesFrame s.1 s.2).cols.length = jj from by
        simp [seriesFrame]]
      rw [show ((s :: rest)[jj + 1]? : Option (String × List (Nat × ℚ))) = rest[jj]? from by
        simp]
      exact ih jj


theorem getElem?_zipWith_ff (l1 l2 : List (Option ℚ)) (j : Nat) (a b : Option ℚ)
    (h1 : l1[j]? = some a) (h2 : l2[j]? = some b) :
    (List.zipWith (fun pv cv => match cv with | some v => some v | none => pv) l1 l2)[j]? =
      some (oAlt b a) := by
  induction l1 generalizing l2 j with
  | nil => simp at h1
  | cons x l1r ih =>
    cases l2 with
    | nil => simp at h2
    | cons y l2r =>
      cases j with
      | zero =>
        simp only [List.getElem?_cons_zero] at h1 h2
        obtain rfl : a = x := by simpa using h1.symm
        obtain rfl : b = y := by simpa using h2.symm
        simp only [List.zipWith_cons_cons, List.getElem?_cons_zero]
        cases b <;> rfl
      | succ jj =>
        simp only [List.getElem?_cons_succ] at h1 h2
        simp only [List.zipWith_cons_cons, List.getElem?_cons_succ]
        exact ih l2r jj h1 h2

theorem ffillRows_map_fst (rows : List (Nat × List (Option ℚ))) :
    ∀ prev, (ffillRows rows prev).map Prod.fst = rows.map Prod.fst := by
  induction rows with
  | nil => intro prev; rfl
  | cons r rest ih =>
    intro prev
    simp only [ffillRows, List.map_cons]
    rw [ih]

theorem ffillRows_col_spec (pts : List (Nat × ℚ)) (j L : Nat) (hjL : j < L)
    (hsp : (pts.map Prod.fst).Pairwise (fun a b => a < b)) :
    ∀ (rows : List (Nat × List (Option ℚ))) (prev : List (Option ℚ)),
      prev.length = L →
      (∀ r ∈ rows, r.2.length = L) →
      (∀ r ∈ rows, (r.2[j]?).join = exactVal pts r.1) →
      (rows.map Prod.fst).Pairwise (fun a b => a < b) →
      (∀ pt ∈ pts, pt.1 ∈ rows.map Prod.fst ∨ ∀ t2 ∈ rows.map Prod.fst, pt.1 < t2) →
      (prev[j]?).join = ffValBelow pts (rows.map Prod.fst) →
      ∀ r ∈ ffillRows rows prev, (r.2[j]?).join = ffVal pts r.1 := by
  intro rows
  induction rows with
  | nil =>
    intro prev _ _ _ _ _ _ r hr
    simp [ffillRows] at hr
  | cons row rest ih =>
    intro prev hplen hlen hcell hps hgap hprev r hr
    have hrowlen : row.2.length = L := hlen row (by simp)
    have hpsfst : (row.1 :: rest.map Prod.fst).Pairwise (fun a b => a < b) := by
      simpa using hps
    cases hpv : prev[j]? with
    | none =>
      rw [List.getElem?_eq_none_iff] at hpv
      omega
    | some pv =>
    cases hcv : row.2[j]? with
    | none =>
      rw [List.getElem?_eq_none_iff] at hcv
      omega
    | some cv =>
    have hpveq : pv = ffValLT pts row.1 := by
      have h0 := hprev
      rw [hpv] at h0
      rw [show (some pv).join = pv from rfl] at h0
      rw [h0, show (row :: rest).map Prod.fst = row.1 :: rest.map Prod.fst from rfl,
        ffValBelow_cons pts row.1 (rest.map Prod.fst) hpsfst]
    have hcveq : cv = exactVal pts row.1 := by
      have h0 := hcell row (by simp)
      rw [hcv] at h0
      exact h0
    have hfj : (List.zipWith (fun pv cv => match cv with | some v => some v | none => pv)
        prev row.2)[j]? = some (oAlt cv pv) :=
      getElem?_zipWith_ff prev row.2 j pv cv hpv hcv
    have hval : oAlt cv pv = ffVal pts row.1 := by
      rw [hcveq, hpveq]
      exact (ffVal_split pts row.1 hsp).symm
    simp only [ffillRows] at hr
    rcases List.mem_cons.mp hr with hr1 | hr2
    · subst hr1
      show ((List.zipWith _ prev row.2)[j]?).join = ffVal pts row.1
      rw [hfj]
      exact hval
    · have hflen : (List.zipWith (fun pv cv => match cv with | some v => some v | none => pv)
          prev row.2).length = L := by
        rw [List.length_zipWith, hplen, hrowlen]
        omega
      have hgap2 : ∀ pt ∈ pts, pt.1 ∈ rest.map Prod.fst ∨
          ∀ t2 ∈ rest.map Prod.fst, pt.1 < t2 := by
        intro pt hpt
        rcases hgap pt hpt with hin | hlt
        · rcases List.mem_cons.mp (show pt.1 ∈ row.1 :: rest.map Prod.fst from hin)
            with h1 | h1
          · right
            intro t2 ht2
            have := (List.pairwise_cons.mp hpsfst).1 t2 ht2
            omega
          · left
            exact h1
        · right
          intro t2 ht2
          exact hlt t2 (by simp [ht2])
      have hnext : ((List.zipWith (fun pv cv => match cv with | some v => some v | none => pv)
          prev row.2)[j]?).join = ffValBelow pts (rest.map Prod.fst) := by
        rw [hfj, show (some (oAlt cv pv)).join = oAlt cv pv from rfl, hval]
        apply ffVal_eq_ffValBelow
        intro pt hpt
        constructor
        · intro hle t2 ht2
          have := (List.pairwise_cons.mp hpsfst).1 t2 ht2
          omega
        · intro hall
          by_contra hgt
          rcases hgap pt hpt with hin | hlt
          · rcases List.mem_cons.mp (show pt.1 ∈ row.1 :: rest.map Prod.fst from hin)
              with h1 | h1
            · omega
            · have := hall pt.1 h1
              omega
          · have := hlt row.1 (by simp)
            omega
      exact ih _ hflen (fun x hx => hlen x (by simp [hx]))
        (fun x hx => hcell x (by simp [hx]))
        (List.pairwise_cons.mp hpsfst).2 hgap2 hnext r hr2

theorem find?_fst_of_mem {β : Type} (rows : List (Nat × β)) (r : Nat × β)
    (hnd : (rows.map Prod.fst).Nodup) (hr : r ∈ rows) :
    rows.find? (fun x => x.1 == r.1) = some r := by
  induction rows with
  | nil => simp at hr
  | cons a rest ih =>
    rcases List.mem_cons.mp hr with h1 | h1
    · subst h1
      exact List.find?_cons_of_pos _ (by simp)
    · rw [List.map_cons] at hnd
      have hnd2 : (rest.map Prod.fst).Nodup := (List.nodup_cons.mp hnd).2
      have hne : a.1 ≠ r.1 := by
        intro heq
        exact (List.nodup_cons.mp hnd).1
          (by rw [heq]; exact List.mem_map.mpr ⟨r, h1, rfl⟩)
      rw [List.find?_cons_of_neg _ (by simpa using hne)]
      exact ih hnd2 h1

theorem mem_allTs_of_colPoints (series : List (String × List (Nat × ℚ)))
    (c : String) (pt : Nat × ℚ) (h : pt ∈ colPoints series c) :
    pt.1 ∈ allTs series := by
  unfold colPoints at h
  rcases List.mem_flatMap.mp h with ⟨s, hs, hpt⟩
  exact List.mem_flatMap.mpr ⟨s, List.mem_of_mem_filter hs,
    List.mem_map.mpr ⟨pt, hpt, rfl⟩⟩

theorem mem_allTs_iff_nonempty (series : List (String × List (Nat × ℚ))) (t : Nat) :
    t ∈ allTs series ↔
      ∃ s ∈ series.filter (fun x => !x.2.isEmpty), t ∈ s.2.map Prod.fst := by
  unfold allTs
  rw [List.mem_flatMap]
  constructor
  · rintro ⟨s, hs, ht⟩
    refine ⟨s, List.mem_filter.mpr ⟨hs, ?_⟩, ht⟩
    rcases List.mem_map.mp ht with ⟨pt, hpt, _⟩
    cases hs2 : s.2 with
    | nil => rw [hs2] at hpt; simp at hpt
    | cons x xs => simp [hs2]
  · rintro ⟨s, hs, ht⟩
    exact ⟨s, List.mem_of_mem_filter hs, ht⟩

theorem colPoints_eq_of_mem (s : String × List (Nat × ℚ)) (hne : s.2 ≠ []) :
    ∀ series : List (String × List (Nat × ℚ)),
      ((series.filter (fun x => !x.2.isEmpty)).map Prod.fst).Nodup →
      s ∈ series → colPoints series s.1 = s.2 := by
  intro series
  induction series with
  | nil =>
    intro _ hmem
    simp at hmem
  | cons x rest ih =>
    intro hcols hmem
    rcases List.mem_cons.mp hmem with h1 | h1
    · subst h1
      rw [colPoints_cons, if_pos (by simp)]
      have hfs : ((s :: rest).filter (fun z => !z.2.isEmpty)) =
          s :: rest.filter (fun z => !z.2.isEmpty) := by
        rw [List.filter_cons, if_pos (by simpa [List.isEmpty_iff] using hne)]
      rw [hfs, List.map_cons] at hcols
      have hnotin := (List.nodup_cons.mp hcols).1
      have hnil : colPoints rest s.1 = [] := by
        apply colPoints_nil_of
        intro y hy hyname
        by_contra hyne
        have hyf : y ∈ rest.filter (fun z => !z.2.isEmpty) :=
          List.mem_filter.mpr ⟨hy, by simpa [List.isEmpty_iff] using hyne⟩
        exact hnotin (List.mem_map.mpr ⟨y, hyf, hyname⟩)
      rw [hnil, List.append_nil]
    · rw [colPoints_cons]
      have hite : (if x.1 == s.1 then x.2 else []) = [] := by
        by_cases hx : x.1 == s.1
        · rw [if_pos hx]
          by_contra hxne
          have hfs : ((x :: rest).filter (fun z => !z.2.isEmpty)) =
              x :: rest.filter (fun z => !z.2.isEmpty) := by
            rw [List.filter_cons, if_pos (by simpa [List.isEmpty_iff] using hxne)]
          rw [hfs, List.map_cons] at hcols
          have hnotin := (List.nodup_cons.mp hcols).1
          have hsf : s ∈ rest.filter (fun z => !z.2.isEmpty) :=
            List.mem_filter.mpr ⟨h1, by simpa [List.isEmpty_iff] using hne⟩
          exact hnotin (by
            rw [eq_of_beq hx]
            exact List.mem_map.mpr ⟨s, hsf, rfl⟩)
        · rw [if_neg hx]
      rw [hite, List.nil_append]
      apply ih ?_ h1
      by_cases hxe : x.2.isEmpty
      · have hfs : ((x :: rest).filter (fun z => !z.2.isEmpty)) =
            rest.filter (fun z => !z.2.isEmpty) := by
          rw [List.filter_cons, if_neg (by simp [hxe])]
        rw [hfs] at hcols
        exact hcols
      · have hfs : ((x :: rest).filter (fun z => !z.2.isEmpty)) =
            x :: rest.filter (fun z => !z.2.isEmpty) := by
          rw [List.filter_cons, if_pos (by simp [hxe])]
        rw [hfs, List.map_cons] at hcols
        exact (List.nodup_cons.mp hcols).2

theorem colPoints_nil_of_not_cols (series : List (String × List (Nat × ℚ)))
    (c : String)
    (h : c ∉ (series.filter (fun x => !x.2.isEmpty)).map Prod.fst) :
    colPoints series c = [] := by
  apply colPoints_nil_of
  intro x hx hname
  by_contra hxne
  exact h (List.mem_map.mpr ⟨x, List.mem_filter.mpr ⟨hx,
    by simpa [List.isEmpty_iff] using hxne⟩, hname⟩)

theorem sorted_nodup_ext (l1 l2 : List Nat)
    (h1 : l1.Pairwise (fun a b => a < b)) (h2 : l2.Pairwise (fun a b => a < b))
    (hm : ∀ t, t ∈ l1 ↔ t ∈ l2) : l1 = l2 := by
  have hnd1 : l1.Nodup := h1.imp (fun h => Nat.ne_of_lt h)
  have hnd2 : l2.Nodup := h2.imp (fun h => Nat.ne_of_lt h)
  have hperm : l1.Perm l2 := (List.perm_ext_iff_of_nodup hnd1 hnd2).mpr hm
  exact List.eq_of_perm_of_sorted hperm
    (h1.imp (fun h => Nat.le_of_lt h)) (h2.imp (fun h => Nat.le_of_lt h))


theorem mem_of_getElem_opt {α : Type} {l : List α} {i : Nat} {a : α}
    (h : l[i]? = some a) : a ∈ l := by
  induction l generalizing i with
  | nil => simp at h
  | cons x rest ih =>
    cases i with
    | zero =>
      simp only [List.getElem?_cons_zero] at h
      exact List.mem_cons.mpr (Or.inl (by simpa using h.symm))
    | succ n =>
      simp only [List.getElem?_cons_succ] at h
      exact List.mem_cons.mpr (Or.inr (ih h))

theorem streaming_spec (ev : List (String × MarketHistEntry))
    (hsorted : ∀ s ∈ eventSeries ev, (s.2.map Prod.fst).Pairwise (fun a b => a < b))
    (hcols : (((eventSeries ev).filter (fun s => !s.2.isEmpty)).map Prod.fst).Nodup) :
    ((iterate_event_rows ev).map Prod.fst).Pairwise (fun a b => a < b) ∧
    (∀ t, t ∈ (iterate_event_rows ev).map Prod.fst ↔ t ∈ allTs (eventSeries ev)) ∧
    (∀ r ∈ iterate_event_rows ev, ∀ c,
      dictGet c r.2 = ffVal (colPoints (eventSeries ev) c) r.1) := by
  have hunfold : iterate_event_rows ev =
      iterateRowsAux (buildTimestampData (eventSeries ev) [])
        (sortNat ((buildTimestampData (eventSeries ev) []).map Prod.fst)) [] := rfl
  have htd : ∀ ts c,
      dictGet c ((dictGet ts (buildTimestampData (eventSeries ev) [])).getD []) =
        exactVal (colPoints (eventSeries ev) c) ts := by
    intro ts c
    rw [innerGet_build]
    exact oAlt_none_right _
  have hrownd : ∀ ts row,
      dictGet ts (buildTimestampData (eventSeries ev) []) = some row →
        (row.map Prod.fst).Nodup :=
    rowsNodup_build _ _ (by intro ts row h; simp [dictGet] at h)
  have hcs : ∀ c,
      ((colPoints (eventSeries ev) c).map Prod.fst).Pairwise (fun a b => a < b) :=
    fun c => colPoints_sorted _ c hsorted hcols
  have htdnodup : ((buildTimestampData (eventSeries ev) []).map Prod.fst).Nodup :=
    nodup_keys_build _ _ (by simp)
  have hperm :
      ((sortNat ((buildTimestampData (eventSeries ev) []).map Prod.fst))).Perm
        ((buildTimestampData (eventSeries ev) []).map Prod.fst) :=
    sortNat_perm _
  have htssnd :
      (sortNat ((buildTimestampData (eventSeries ev) []).map Prod.fst)).Nodup :=
    hperm.nodup_iff.mpr htdnodup
  have htssle :
      (sortNat ((buildTimestampData (eventSeries ev) []).map Prod.fst)).Pairwise
        (fun a b => a ≤ b) :=
    sortNat_sorted _
  have htsslt := pairwise_lt_of_le_nodup _ htssle htssnd
  have htssmem : ∀ t,
      t ∈ sortNat ((buildTimestampData (eventSeries ev) []).map Prod.fst) ↔
        t ∈ allTs (eventSeries ev) := by
    intro t
    rw [hperm.mem_iff, keys_build]
    simp
  have hgap : ∀ c pt, pt ∈ colPoints (eventSeries ev) c →
      pt.1 ∈ sortNat ((buildTimestampData (eventSeries ev) []).map Prod.fst) ∨
        ∀ t2 ∈ sortNat ((buildTimestampData (eventSeries ev) []).map Prod.fst),
          pt.1 < t2 :=
    fun c pt h => Or.inl ((htssmem _).mpr (mem_allTs_of_colPoints _ _ _ h))
  have hprev : ∀ c, dictGet c ([] : List (String × ℚ)) =
      ffValBelow (colPoints (eventSeries ev) c)
        (sortNat ((buildTimestampData (eventSeries ev) []).map Prod.fst)) := by
    intro c
    rw [ffValBelow_eq_none _ _
      (fun pt hpt => (htssmem _).mpr (mem_allTs_of_colPoints _ _ _ hpt))]
    rfl
  have hmain := iterateRowsAux_spec (eventSeries ev)
    (buildTimestampData (eventSeries ev) []) htd hrownd hcs
    (sortNat ((buildTimestampData (eventSeries ev) []).map Prod.fst)) []
    htsslt hgap hprev (by simp)
  rw [hunfold]
  refine ⟨?_, ?_, ?_⟩
  · rw [hmain.1]
    exact htsslt
  · intro t
    rw [hmain.1]
    exact htssmem t
  · exact hmain.2

theorem merge_core (series : List (String × List (Nat × ℚ)))
    (ne0 : String × List (Nat × ℚ)) (neRest : List (String × List (Nat × ℚ)))
    (hne : series.filter (fun s => !s.2.isEmpty) = ne0 :: neRest)
    (hsorted : ∀ s ∈ series, (s.2.map Prod.fst).Pairwise (fun a b => a < b))
    (hcols : ((series.filter (fun s => !s.2.isEmpty)).map Prod.fst).Nodup) :
    (ffillFrame (mergeJoined ne0 neRest)).cols =
      (series.filter (fun s => !s.2.isEmpty)).map Prod.fst ∧
    ((ffillFrame (mergeJoined ne0 neRest)).rows.map Prod.fst).Pairwise
      (fun a b => a < b) ∧
    (∀ t, t ∈ (ffillFrame (mergeJoined ne0 neRest)).rows.map Prod.fst ↔
      t ∈ allTs series) ∧
    (∀ i rM c, (ffillFrame (mergeJoined ne0 neRest)).rows[i]? = some rM →
      frameCell (ffillFrame (mergeJoined ne0 neRest)) i c =
        ffVal (colPoints series c) rM.1) := by
  have hmemall : ∀ s ∈ ne0 :: neRest, s ∈ series ∧ s.2 ≠ [] := by
    intro s hs
    have hs2 : s ∈ series.filter (fun z => !z.2.isEmpty) := by
      rw [hne]
      exact hs
    refine ⟨List.mem_of_mem_filter hs2, ?_⟩
    have h2 := (List.mem_filter.mp hs2).2
    simpa [List.isEmpty_iff] using h2
  have hsortedNE : ∀ s ∈ ne0 :: neRest,
      (s.2.map Prod.fst).Pairwise (fun a b => a < b) :=
    fun s hs => hsorted s (hmemall s hs).1
  have hJcols : (mergeJoined ne0 neRest).cols = (ne0 :: neRest).map Prod.fst := by
    unfold mergeJoined
    rw [foldl_join_cols, flatMap_cols_seriesFrames]
    rfl
  have hJwf : ∀ r ∈ (mergeJoined ne0 neRest).rows,
      r.2.length = (mergeJoined ne0 neRest).cols.length := by
    unfold mergeJoined
    exact foldl_join_wf _ _ (seriesFrame_wf _ _) (by
      intro f hf
      rcases List.mem_map.mp hf with ⟨x, _, hfx⟩
      subst hfx
      exact seriesFrame_wf _ _)
  have hJsorted : ((mergeJoined ne0 neRest).rows.map Prod.fst).Pairwise
      (fun a b => a < b) := by
    unfold mergeJoined
    exact foldl_join_index_sorted _ _ (by
      rw [seriesFrame_index]
      exact hsortedNE ne0 (by simp))
  have hJnd : ((mergeJoined ne0 neRest).rows.map Prod.fst).Nodup :=
    hJsorted.imp (fun h => Nat.ne_of_lt h)
  have hJmem : ∀ t, t ∈ (mergeJoined ne0 neRest).rows.map Prod.fst ↔
      t ∈ allTs series := by
    intro t
    rw [mem_allTs_iff_nonempty series t, hne]
    unfold mergeJoined
    rw [foldl_join_index_mem]
    constructor
    · rintro (h | ⟨f, hf, hm⟩)
      · exact ⟨ne0, by simp, by rwa [seriesFrame_index] at h⟩
      · rcases List.mem_map.mp hf with ⟨x, hx, hfx⟩
        subst hfx
        exact ⟨x, by simp [hx], by rwa [seriesFrame_index] at hm⟩
    · rintro ⟨x, hx, hm⟩
      rcases List.mem_cons.mp hx with h1 | h1
      · subst h1
        left
        rwa [seriesFrame_index]
      · right
        exact ⟨seriesFrame x.1 x.2, List.mem_map.mpr ⟨x, h1, rfl⟩,
          by rwa [seriesFrame_index]⟩
  have hJval : ∀ ts j x, (ne0 :: neRest)[j]? = some x →
      frameVal (mergeJoined ne0 neRest) ts j = exactVal x.2 ts := by
    intro ts j x hx
    unfold mergeJoined
    rw [frameVal_foldl_join _ _ ts (seriesFrame_wf _ _) (by
      intro f hf
      rcases List.mem_map.mp hf with ⟨z, _, hfz⟩
      subst hfz
      exact seriesFrame_wf _ _) j]
    cases j with
    | zero =>
      obtain rfl : x = ne0 := by simpa using hx.symm
      rw [if_pos (by simp [seriesFrame])]
      exact frameVal_seriesFrame _ _ _ (hsortedNE x (by simp))
    | succ jj =>
      rw [if_neg (by simp [seriesFrame])]
      rw [show jj + 1 - (seriesFrame ne0.1 ne0.2).cols.length = jj from by
        simp [seriesFrame]]
      rw [frameValSeq_seriesFrames neRest ts jj]
      have hx2 : neRest[jj]? = some x := by simpa using hx
      have hsorted2 := hsortedNE x (List.mem_cons.mpr (Or.inr (mem_of_getElem_opt hx2)))
      simp only [hx2]
      exact frameVal_seriesFrame x.1 x.2 ts hsorted2
  have hJcell : ∀ (j : Nat) (x : String × List (Nat × ℚ)), (ne0 :: neRest)[j]? = some x →
      ∀ r ∈ (mergeJoined ne0 neRest).rows,
        (r.2[j]?).join = exactVal (colPoints series x.1) r.1 := by
    intro j x hx r hr
    have hlookup : frameRowLookup (mergeJoined ne0 neRest) r.1 = some r.2 := by
      unfold frameRowLookup
      rw [find?_fst_of_mem _ r hJnd hr]
      rfl
    have hfv : frameVal (mergeJoined ne0 neRest) r.1 j = (r.2[j]?).join := by
      unfold frameVal
      rw [hlookup]
      rfl
    rw [← hfv, hJval r.1 j x hx,
      colPoints_eq_of_mem x (hmemall x (mem_of_getElem_opt hx)).2 series hcols
        (hmemall x (mem_of_getElem_opt hx)).1]
  have hMrows : (ffillFrame (mergeJoined ne0 neRest)).rows.map Prod.fst =
      (mergeJoined ne0 neRest).rows.map Prod.fst :=
    ffillRows_map_fst (mergeJoined ne0 neRest).rows
      (noneRow (mergeJoined ne0 neRest))
  refine ⟨?_, ?_, ?_, ?_⟩
  · show (mergeJoined ne0 neRest).cols = _
    rw [hJcols, hne]
  · rw [hMrows]
    exact hJsorted
  · intro t
    rw [hMrows]
    exact hJmem t
  · intro i rM c hMi
    have hrM : rM ∈ (ffillFrame (mergeJoined ne0 neRest)).rows :=
      mem_of_getElem_opt hMi
    cases hci : colIndex c (ffillFrame (mergeJoined ne0 neRest)).cols with
    | none =>
      have hcnot : c ∉ (ffillFrame (mergeJoined ne0 neRest)).cols :=
        (colIndex_eq_none_iff _ _).mp hci
      have hpts : colPoints series c = [] := by
        apply colPoints_nil_of_not_cols
        intro hcmem
        apply hcnot
        show c ∈ (mergeJoined ne0 neRest).cols
        rw [hne] at hcmem
        rw [hJcols]
        exact hcmem
      have hcell0 : frameCell (ffillFrame (mergeJoined ne0 neRest)) i c = none := by
        simp only [frameCell, hMi, hci]
      rw [hcell0, hpts]
      rfl
    | some j =>
      have hcj : (ffillFrame (mergeJoined ne0 neRest)).cols[j]? = some c :=
        getElem?_of_colIndex c _ j hci
      have hcj2 : ((ne0 :: neRest).map Prod.fst)[j]? = some c := by
        rw [← hJcols]
        exact hcj
      rw [List.getElem?_map] at hcj2
      cases hx : (ne0 :: neRest)[j]? with
      | none =>
        rw [hx] at hcj2
        simp at hcj2
      | some x =>
        rw [hx] at hcj2
        have hxc : x.1 = c := by simpa using hcj2
        have hjL : j < (mergeJoined ne0 neRest).cols.length := by
          by_contra hnot
          have hcj3 : (mergeJoined ne0 neRest).cols[j]? = some c := hcj
          rw [List.getElem?_eq_none (by omega)] at hcj3
          exact Option.noConfusion hcj3
        have hspc : ((colPoints series c).map Prod.fst).Pairwise
            (fun a b => a < b) := colPoints_sorted series c hsorted hcols
        have hcellJ : ∀ r ∈ (mergeJoined ne0 neRest).rows,
            (r.2[j]?).join = exactVal (colPoints series c) r.1 := by
          intro r hr
          rw [show colPoints series c = colPoints series x.1 from by rw [hxc]]
          exact hJcell j x hx r hr
        have hffill := ffillRows_col_spec (colPoints series c) j
          (mergeJoined ne0 neRest).cols.length hjL hspc
          (mergeJoined ne0 neRest).rows (noneRow (mergeJoined ne0 neRest))
          (by simp [noneRow])
          hJwf hcellJ hJsorted
          (fun pt hpt => Or.inl ((hJmem pt.1).mpr
            (mem_allTs_of_colPoints _ _ _ hpt)))
          (by
            rw [noneRow_getElem_join,
              ffValBelow_eq_none _ _ (fun pt hpt =>
                (hJmem pt.1).mpr (mem_allTs_of_colPoints _ _ _ hpt))])
        have hcellM : (rM.2[j]?).join = ffVal (colPoints series c) rM.1 :=
          hffill rM hrM
        have hcellF : frameCell (ffillFrame (mergeJoined ne0 neRest)) i c =
            (rM.2[j]?).join := by
          simp only [frameCell, hMi, hci]
        rw [hcellF, hcellM]

theorem merge_spec (ev : List (String × MarketHistEntry))
    (hsorted : ∀ s ∈ eventSeries ev, (s.2.map Prod.fst).Pairwise (fun a b => a < b))
    (hcols : (((eventSeries ev).filter (fun s => !s.2.isEmpty)).map Prod.fst).Nodup) :
    (merge_event_price_histories ev).cols =
      ((eventSeries ev).filter (fun s => !s.2.isEmpty)).map Prod.fst ∧
    ((merge_event_price_histories ev).rows.map Prod.fst).Pairwise (fun a b => a < b) ∧
    (∀ t, t ∈ (merge_event_price_histories ev).rows.map Prod.fst ↔
      t ∈ allTs (eventSeries ev)) ∧
    (∀ i rM c, (merge_event_price_histories ev).rows[i]? = some rM →
      frameCell (merge_event_price_histories ev) i c =
        ffVal (colPoints (eventSeries ev) c) rM.1) := by
  cases hne : (eventSeries ev).filter (fun s => !s.2.isEmpty) with
  | nil =>
    have hM : merge_event_price_histories ev = { cols := [], rows := [] } := by
      unfold merge_event_price_histories
      rw [hne]
      rfl
    rw [hM]
    refine ⟨rfl, by simp, ?_, ?_⟩
    · intro t
      rw [mem_allTs_iff_nonempty (eventSeries ev) t, hne]
      simp
    · intro i rM c h
      simp at h
  | cons ne0 neRest =>
    have hM : merge_event_price_histories ev =
        ffillFrame (mergeJoined ne0 neRest) := by
      unfold merge_event_price_histories mergeJoined
      rw [hne]
      rfl
    rw [hM]
    have h := merge_core (eventSeries ev) ne0 neRest hne hsorted hcols
    rw [hne] at h
    exact h


/-- C4 counterexample: on an event whose single outcome history holds
two points with the same timestamp (violating the documented
`PriceHistory` strictly-increasing-timestamp invariant), the streaming
iterator `iterate_event_rows` yields a single row for timestamp 1 while
the pandas merge `merge_event_price_histories` keeps both duplicate
index entries, so the two engines do not produce identical merged
time series. -/
theorem merge_streaming_counterexample :
    (iterate_event_rows dupTsEvent).map Prod.fst = [1] ∧
    (merge_event_price_histories dupTsEvent).rows.map Prod.fst = [1, 1] := by
  constructor <;> decide

/-- C4: under the documented `PriceHistory` invariant that every
outcome history's timestamps are strictly increasing, and provided the
column names of the non-empty series are pairwise distinct, the
streaming iterator `iterate_event_rows` and the pandas-based
`merge_event_price_histories` produce identical merged time series:
the same row timestamps in the same order, the merge frame carrying
exactly the non-empty series as columns, and every cell equal (a
column absent from a streaming row corresponds exactly to a NaN cell
in the merged frame, both meaning the column has no point at or before
that row's timestamp).  Without the invariant the engines disagree;
see the counterexample. -/
theorem merge_streaming_equiv (ev : List (String × MarketHistEntry))
    (hsorted : ∀ s ∈ eventSeries ev,
      (s.2.map Prod.fst).Pairwise (fun a b => a < b))
    (hcols : (((eventSeries ev).filter (fun s => !s.2.isEmpty)).map
      Prod.fst).Nodup) :
    (iterate_event_rows ev).map Prod.fst =
      (merge_event_price_histories ev).rows.map Prod.fst ∧
    (merge_event_price_histories ev).cols =
      ((eventSeries ev).filter (fun s => !s.2.isEmpty)).map Prod.fst ∧
    (∀ i r c, (iterate_event_rows ev)[i]? = some r →
      dictGet c r.2 = frameCell (merge_event_price_histories ev) i c) := by
  have hS := streaming_spec ev hsorted hcols
  have hM := merge_spec ev hsorted hcols
  have haxis : (iterate_event_rows ev).map Prod.fst =
      (merge_event_price_histories ev).rows.map Prod.fst :=
    sorted_nodup_ext _ _ hS.1 hM.2.1
      (fun t => by rw [hS.2.1 t, ← hM.2.2.1 t])
  refine ⟨haxis, hM.1, ?_⟩
  intro i r c hSi
  have hrS : r ∈ iterate_event_rows ev := mem_of_getElem_opt hSi
  have hcell_s := hS.2.2 r hrS c
  have hfst : ((merge_event_price_histories ev).rows.map Prod.fst)[i]? =
      some r.1 := by
    rw [← haxis, List.getElem?_map, hSi]
    rfl
  rw [List.getElem?_map] at hfst
  cases hMi : (merge_event_price_histories ev).rows[i]? with
  | none =>
    rw [hMi] at hfst
    simp at hfst
  | some rM =>
    rw [hMi] at hfst
    have hrfst : rM.1 = r.1 := by simpa using hfst
    rw [hcell_s, hM.2.2.2 i rM c hMi, hrfst]

/-- Witness for the C4 equivalence theorem on a concrete two-market,
two-outcome event with partially overlapping timestamps. -/
theorem merge_streaming_equiv_witness :
    (iterate_event_rows witnessEventC4).map Prod.fst =
      (merge_event_price_histories witnessEventC4).rows.map Prod.fst ∧
    (merge_event_price_histories witnessEventC4).cols =
      ((eventSeries witnessEventC4).filter (fun s => !s.2.isEmpty)).map
        Prod.fst ∧
    (∀ i r c, (iterate_event_rows witnessEventC4)[i]? = some r →
      dictGet c r.2 = frameCell (merge_event_price_histories witnessEventC4) i c) :=
  merge_streaming_equiv witnessEventC4 (by decide) (by decide)


end Polymarket
